import Mathlib

/-!
Verification of the audio-text synchronization core of the
invideo-ai-pexels-backend repository.

Strings are modelled as `List Char` (`Str`), JS numbers carrying
millisecond timestamps as `ℤ` where the code only ever produces integers
(word-level timings, `Math.round` outputs) and as `ℚ` where fractional
values flow (the section-offset chaining, similarity scores).
-/

set_option maxHeartbeats 2000000

/-- Strings are modelled as lists of characters. -/
abbrev Str := List Char

namespace JsString

/-- Whether `needle` is a prefix of `hay` (character-exact). -/
def isPrefixList : Str → Str → Bool
  | [], _ => true
  | _ :: _, [] => false
  | a :: as, b :: bs => a == b && isPrefixList as bs

/-- First index `≥ i` (counting from the start of the given suffix) at which
`needle` occurs; mirrors the scan of `String.prototype.indexOf`. -/
def indexOfAux (needle : Str) : Str → ℕ → Option ℕ
  | [], i => if needle.isEmpty then some i else none
  | s@(_ :: rest), i => if isPrefixList needle s then some i else indexOfAux needle rest (i + 1)

/-- `hay.indexOf(needle, start)` of JavaScript: the start position is clamped to
the string length, and an empty needle matches at the (clamped) start. -/
def indexOfFrom (hay needle : Str) (start : ℕ) : Option ℕ :=
  let p := min start hay.length
  (indexOfAux needle (hay.drop p) 0).map (· + p)

/-- The JavaScript whitespace class `\s` (ASCII part plus NBSP; the code under
verification never produces the exotic Unicode space separators). -/
def isWsChar (c : Char) : Bool :=
  c.toNat = 32 ∨ c.toNat = 9 ∨ c.toNat = 10 ∨ c.toNat = 11 ∨ c.toNat = 12 ∨
    c.toNat = 13 ∨ c.toNat = 160

/-- `String.prototype.trim`: strip leading and trailing whitespace. -/
def trimStr (s : Str) : Str :=
  ((s.dropWhile isWsChar).reverse.dropWhile isWsChar).reverse

/-- `replace(/\s+/g, " ")`: every maximal whitespace run becomes one space. -/
def collapseWs : Str → Str
  | [] => []
  | [c] => if isWsChar c then [' '] else [c]
  | c :: d :: rest =>
      if isWsChar c then
        if isWsChar d then collapseWs (d :: rest)
        else ' ' :: collapseWs (d :: rest)
      else c :: collapseWs (d :: rest)

/-- ASCII lower-casing of one character, as `toLowerCase` acts on the
character range this codebase feeds it. -/
def lowerChar (c : Char) : Char :=
  if 65 ≤ c.toNat ∧ c.toNat ≤ 90 then Char.ofNat (c.toNat + 32) else c

/-- `String.prototype.toLowerCase`. -/
def toLowerStr (s : Str) : Str := s.map lowerChar

end JsString

namespace TextNormalizer

/-- The punctuation class removed by `TextNormalizer.normalizeText`
(regex `[.,;:""''!?()[\]{}]` of `text-normalizer.ts`): period, comma,
semicolon, colon, double quote, single quote, bang, question mark, and the
three bracket pairs. -/
def isPunct (c : Char) : Bool :=
  c.toNat ∈ ([46, 44, 59, 58, 34, 39, 33, 63, 40, 41, 91, 93, 123, 125] : List ℕ)

/-- Remove every punctuation character (`replace(/[.,;:""''!?()[\]{}]/g, "")`). -/
def stripPunct (s : Str) : Str := s.filter (fun c => ¬ isPunct c)

/-- Modelled from the spec: the number-word dictionary of the external
`words-to-numbers` dependency (not part of this repository). The spec asks
for a best-effort conversion of spoken number words to digit sequences, e.g.
`normalize("Twenty-six people, Chapter Two!")` gives `"26 people chapter 2"`. -/
def numberWords : List (Str × Str) :=
  [("zero".toList, "0".toList), ("one".toList, "1".toList), ("two".toList, "2".toList),
   ("three".toList, "3".toList), ("four".toList, "4".toList), ("five".toList, "5".toList),
   ("six".toList, "6".toList), ("seven".toList, "7".toList), ("eight".toList, "8".toList),
   ("nine".toList, "9".toList), ("ten".toList, "10".toList), ("eleven".toList, "11".toList),
   ("twelve".toList, "12".toList), ("thirteen".toList, "13".toList),
   ("fourteen".toList, "14".toList), ("fifteen".toList, "15".toList),
   ("sixteen".toList, "16".toList), ("seventeen".toList, "17".toList),
   ("eighteen".toList, "18".toList), ("nineteen".toList, "19".toList),
   ("twenty".toList, "20".toList), ("twenty-six".toList, "26".toList),
   ("thirty".toList, "30".toList), ("forty".toList, "40".toList),
   ("fifty".toList, "50".toList), ("sixty".toList, "60".toList),
   ("seventy".toList, "70".toList), ("eighty".toList, "80".toList),
   ("ninety".toList, "90".toList), ("hundred".toList, "100".toList),
   ("thousand".toList, "1000".toList)]

/-- Convert one (whitespace-free) word: dictionary hit or unchanged. -/
def convertWord (w : Str) : Str := (numberWords.lookup w).getD w

/-- Apply `f` to every maximal non-whitespace run of the string, leaving all
whitespace characters in place; `acc` holds the reversed current run. -/
def mapWordsAcc (f : Str → Str) : Str → Str → Str
  | acc, [] => f acc.reverse
  | acc, c :: rest =>
      if JsString.isWsChar c then f acc.reverse ++ c :: mapWordsAcc f [] rest
      else mapWordsAcc f (c :: acc) rest

/-- Modelled from the spec: `wordsToNumbers` of the external `words-to-numbers`
dependency, as a word-by-word digit-sequence conversion. -/
def wordsToNumbersModel (s : Str) : Str := mapWordsAcc convertWord [] s

/-- `TextNormalizer.normalizeNumbers`: the conversion result is a string here,
so the typeof dispatch of the source always takes the string branch. -/
def normalizeNumbers (text : Str) : Str := wordsToNumbersModel text

/-- `TextNormalizer.normalizeText`: lowercase, strip punctuation, convert
number words, collapse whitespace, trim. -/
def normalizeText (text : Str) : Str :=
  JsString.trimStr (JsString.collapseWs (normalizeNumbers (stripPunct (JsString.toLowerStr text))))

/-- `TextNormalizer.tokenize`: normalize, split on single spaces, drop empty
tokens. -/
def tokenize (text : Str) : List Str :=
  ((normalizeText text).splitOn ' ').filter (fun token => token.length > 0)

end TextNormalizer

-- the worked example of the specification
example :
    TextNormalizer.normalizeText "Twenty-six people, Chapter Two!".toList =
      "26 people chapter 2".toList := by decide

namespace SequenceAligner

/-- An alignment between one reference token and one target token
(`src/services/alignment/sequence-aligner.ts`, interface `Alignment`). -/
structure Alignment where
  refIndex : ℕ
  targetIndex : ℕ
  distance : ℕ
deriving DecidableEq, Repr

/-- A transcript word with millisecond timing
(`sequence-aligner.ts`, interface `TimedWord`). -/
structure TimedWord where
  text : Str
  start : ℤ
  end_ : ℤ
deriving DecidableEq, Repr

/-- Row update of the standard Levenshtein dynamic program: given the previous
row and the value to the left, produce the cells of the next row. -/
def levRowAux (x : Char) : Str → List ℕ → ℕ → List ℕ
  | [], _, _ => []
  | y :: ys, diag :: rest, left =>
      let up := rest.headD 0
      let cell := min (min (up + 1) (left + 1)) (diag + (if x == y then 0 else 1))
      cell :: levRowAux x ys rest cell
  | _ :: _, [], _ => []

/-- Levenshtein edit distance (the `distance` function of the
`fastest-levenshtein` dependency), computed row by row. -/
def levenshtein (xs ys : Str) : ℕ :=
  let row0 := List.range (ys.length + 1)
  ((xs.foldl (fun (acc : List ℕ × ℕ) x =>
      (acc.2 :: levRowAux x ys acc.1 acc.2, acc.2 + 1)) (row0, 1)).1).getLastD 0

/-- Inner loop of `alignSequences`: scan all target tokens and keep the first
minimum-distance candidate for reference token `i` (strict improvement only,
so ties keep the lowest target index, as in the source). -/
def bestMatchAux (i : ℕ) (ref : Str) : List Str → ℕ → Option Alignment → Option Alignment
  | [], _, best => best
  | t :: ts, j, best =>
      let d := levenshtein ref t
      let best' :=
        match best with
        | none => some ⟨i, j, d⟩
        | some b => if d < b.distance then some ⟨i, j, d⟩ else some b
      bestMatchAux i ref ts (j + 1) best'

/-- Greedy acceptance scan of `filterAlignments`: accept an alignment only if
neither its `refIndex` nor its `targetIndex` has been used. -/
def greedyFilter : List Alignment → List ℕ → List ℕ → List Alignment
  | [], _, _ => []
  | a :: rest, usedR, usedT =>
      if a.refIndex ∈ usedR ∨ a.targetIndex ∈ usedT then
        greedyFilter rest usedR usedT
      else
        a :: greedyFilter rest (a.refIndex :: usedR) (a.targetIndex :: usedT)

/-- Stable ascending sort by `distance`, as `[...].sort((a, b) => a.distance - b.distance)`. -/
def sortByDistance (l : List Alignment) : List Alignment :=
  List.insertionSort (fun a b => a.distance ≤ b.distance) l

/-- Stable ascending sort by `refIndex`, as `.sort((a, b) => a.refIndex - b.refIndex)`. -/
def sortByRefIndex (l : List Alignment) : List Alignment :=
  List.insertionSort (fun a b => a.refIndex ≤ b.refIndex) l

/-- `SequenceAligner.filterAlignments`: sort by distance, greedily enforce the
one-to-one mapping, re-sort by reference index. -/
def filterAlignments (alignments : List Alignment) : List Alignment :=
  sortByRefIndex (greedyFilter (sortByDistance alignments) [] [])

/-- `SequenceAligner.alignSequences`: best target match per reference token,
then filtering. -/
def alignSequences (referenceTokens targetTokens : List Str) : List Alignment :=
  filterAlignments
    (referenceTokens.enum.filterMap (fun p => bestMatchAux p.1 p.2 targetTokens 0 none))

/-- Timing of one segment (`sequence-aligner.ts`, return of `getSegmentTiming`). -/
structure SegTiming where
  startTime : ℤ
  endTime : ℤ
  duration : ℤ
deriving DecidableEq, Repr

/-- `SequenceAligner.getSegmentTiming`: min/max aligned target index mapped to
word start/end; all-zero timing if no alignments or a referenced word is
missing. -/
def getSegmentTiming (segmentTokens : List Str) (transcriptWords : List TimedWord)
    (alignments : List Alignment) : SegTiming :=
  let segmentAlignments := alignments.filter (fun a => a.refIndex < segmentTokens.length)
  if segmentAlignments.isEmpty then ⟨0, 0, 0⟩
  else
    let targets := segmentAlignments.map (·.targetIndex)
    let firstTargetIndex := (targets.min?).getD 0
    let lastTargetIndex := (targets.max?).getD 0
    match transcriptWords.get? firstTargetIndex, transcriptWords.get? lastTargetIndex with
    | some firstWord, some lastWord =>
        ⟨firstWord.start, lastWord.end_, lastWord.end_ - firstWord.start⟩
    | _, _ => ⟨0, 0, 0⟩

end SequenceAligner

-- sanity checks of the Levenshtein embedding
example : SequenceAligner.levenshtein "cat".toList "dog".toList = 3 := by decide
example : SequenceAligner.levenshtein "kitten".toList "sitting".toList = 3 := by decide
example : SequenceAligner.levenshtein "cat".toList "".toList = 3 := by decide
example : SequenceAligner.levenshtein "".toList "dog".toList = 3 := by decide

-- the worked example of the specification:
-- align(["cat","dog"], ["dog","cat","fish"]) gives exactly two alignments
example :
    SequenceAligner.alignSequences ["cat".toList, "dog".toList]
      ["dog".toList, "cat".toList, "fish".toList] =
      [⟨0, 1, 0⟩, ⟨1, 0, 0⟩] := by decide

namespace TextAlignmentService

/-- A word-level transcription entry (`assembly-types.ts`, `TranscriptWord`). -/
structure TranscriptWord where
  text : Str
  start : ℤ
  end_ : ℤ
  confidence : ℚ
deriving Repr

/-- A segment with resolved timing (`assembly-types.ts`, `TextTiming`). -/
structure TextTiming where
  text : Str
  startTime : ℤ
  endTime : ℤ
  duration : ℤ
deriving DecidableEq, Repr

/-- Largest matched target index, as `Math.max(...globalAlignments.map(a => a.targetIndex))`
(the code only evaluates it on non-empty alignment lists). -/
def maxTargetIndex (alignments : List SequenceAligner.Alignment) : ℕ :=
  (alignments.map (·.targetIndex)).foldr max 0

/-- One iteration of the sliding-window loop of
`TextAlignmentService.alignSegmentsWithTranscript`: returns the timing entry
pushed for this segment, the global alignments it matched (empty for the
placeholder branches), and the updated cursor. -/
def globalAligns (c : ℕ) (localAlignments : List SequenceAligner.Alignment) :
    List SequenceAligner.Alignment :=
  localAlignments.map (fun a => { a with targetIndex := a.targetIndex + c })

def alignStep (transcriptTokens : List Str) (timedWords : List SequenceAligner.TimedWord)
    (c : ℕ) (segment : Str) :
    TextTiming × List SequenceAligner.Alignment × ℕ :=
  if (TextNormalizer.tokenize (TextNormalizer.normalizeText segment)).isEmpty then
    (⟨segment, 0, 0, 0⟩, [], c)
  else if (transcriptTokens.drop c).isEmpty then
    (⟨segment, 0, 0, 0⟩, [], c)
  else if (SequenceAligner.alignSequences
      (TextNormalizer.tokenize (TextNormalizer.normalizeText segment))
      (transcriptTokens.drop c)).isEmpty then
    (⟨segment, 0, 0, 0⟩, [], c)
  else
    (⟨segment,
      (SequenceAligner.getSegmentTiming
        (TextNormalizer.tokenize (TextNormalizer.normalizeText segment)) timedWords
        (globalAligns c (SequenceAligner.alignSequences
          (TextNormalizer.tokenize (TextNormalizer.normalizeText segment))
          (transcriptTokens.drop c)))).startTime,
      (SequenceAligner.getSegmentTiming
        (TextNormalizer.tokenize (TextNormalizer.normalizeText segment)) timedWords
        (globalAligns c (SequenceAligner.alignSequences
          (TextNormalizer.tokenize (TextNormalizer.normalizeText segment))
          (transcriptTokens.drop c)))).endTime,
      (SequenceAligner.getSegmentTiming
        (TextNormalizer.tokenize (TextNormalizer.normalizeText segment)) timedWords
        (globalAligns c (SequenceAligner.alignSequences
          (TextNormalizer.tokenize (TextNormalizer.normalizeText segment))
          (transcriptTokens.drop c)))).duration⟩,
     globalAligns c (SequenceAligner.alignSequences
        (TextNormalizer.tokenize (TextNormalizer.normalizeText segment))
        (transcriptTokens.drop c)),
     maxTargetIndex (globalAligns c (SequenceAligner.alignSequences
        (TextNormalizer.tokenize (TextNormalizer.normalizeText segment))
        (transcriptTokens.drop c))) + 1)

/-- The segment loop, threading the sliding-window cursor; each entry keeps
the (ghost) global alignments of its segment next to the emitted timing. -/
def alignLoopInfo (transcriptTokens : List Str) (timedWords : List SequenceAligner.TimedWord) :
    ℕ → List Str → List (TextTiming × List SequenceAligner.Alignment)
  | _, [] => []
  | c, segment :: rest =>
      let r := alignStep transcriptTokens timedWords c segment
      (r.1, r.2.1) :: alignLoopInfo transcriptTokens timedWords r.2.2 rest

/-- `alignSegmentsWithTranscript` instrumented with the matched global
alignments of every segment. -/
def alignSegmentsWithTranscriptInfo (transcriptText : Str)
    (transcriptWords : List TranscriptWord) (segments : List Str) :
    List (TextTiming × List SequenceAligner.Alignment) :=
  let timedWords : List SequenceAligner.TimedWord :=
    transcriptWords.map (fun word => ⟨word.text, word.start, word.end_⟩)
  let transcriptTokens := TextNormalizer.tokenize (TextNormalizer.normalizeText transcriptText)
  alignLoopInfo transcriptTokens timedWords 0 segments

/-- `TextAlignmentService.alignSegmentsWithTranscript` (`text-alignment-service`):
one timing entry per input segment, produced by the sliding-window loop. -/
def alignSegmentsWithTranscript (transcriptText : Str)
    (transcriptWords : List TranscriptWord) (segments : List Str) : List TextTiming :=
  (alignSegmentsWithTranscriptInfo transcriptText transcriptWords segments).map (·.1)

end TextAlignmentService

namespace SequenceAligner

lemma greedyFilter_spec (l : List Alignment) (usedR usedT : List ℕ) :
    (∀ a ∈ greedyFilter l usedR usedT, a.refIndex ∉ usedR ∧ a.targetIndex ∉ usedT) ∧
    ((greedyFilter l usedR usedT).map (·.refIndex)).Nodup ∧
    ((greedyFilter l usedR usedT).map (·.targetIndex)).Nodup := by
  induction l generalizing usedR usedT with
  | nil => simp [greedyFilter]
  | cons a rest ih =>
    by_cases h : a.refIndex ∈ usedR ∨ a.targetIndex ∈ usedT
    · simpa [greedyFilter, h] using ih usedR usedT
    · push_neg at h
      obtain ⟨ih1, ih2, ih3⟩ := ih (a.refIndex :: usedR) (a.targetIndex :: usedT)
      have hcons : greedyFilter (a :: rest) usedR usedT =
          a :: greedyFilter rest (a.refIndex :: usedR) (a.targetIndex :: usedT) := by
        simp [greedyFilter, h.1, h.2]
      refine ⟨?_, ?_, ?_⟩
      · intro b hb
        rw [hcons] at hb
        rcases List.mem_cons.mp hb with hb | hb
        · exact hb ▸ ⟨h.1, h.2⟩
        · have := ih1 b hb
          exact ⟨fun hc => this.1 (List.mem_cons_of_mem _ hc),
                 fun hc => this.2 (List.mem_cons_of_mem _ hc)⟩
      · rw [hcons, List.map_cons, List.nodup_cons]
        refine ⟨?_, ih2⟩
        intro hmem
        obtain ⟨b, hb, hbeq⟩ := List.mem_map.mp hmem
        exact (ih1 b hb).1 (hbeq ▸ List.mem_cons_self _ _)
      · rw [hcons, List.map_cons, List.nodup_cons]
        refine ⟨?_, ih3⟩
        intro hmem
        obtain ⟨b, hb, hbeq⟩ := List.mem_map.mp hmem
        exact (ih1 b hb).2 (hbeq ▸ List.mem_cons_self _ _)

/-- Claim C10: every result of `getSegmentTiming` satisfies
`duration = endTime - startTime`, including all three fallback returns. -/
theorem getSegmentTiming_duration (segmentTokens : List Str)
    (transcriptWords : List TimedWord) (alignments : List Alignment) :
    (getSegmentTiming segmentTokens transcriptWords alignments).duration =
      (getSegmentTiming segmentTokens transcriptWords alignments).endTime -
        (getSegmentTiming segmentTokens transcriptWords alignments).startTime := by
  unfold getSegmentTiming
  dsimp only
  split
  · simp
  · split
    · simp
    · simp

/-- Claim C4: the output of `alignSequences` never repeats a `refIndex` or a
`targetIndex`, and is sorted in ascending order of `refIndex`. -/
theorem alignSequences_one_to_one_sorted (referenceTokens targetTokens : List Str) :
    ((alignSequences referenceTokens targetTokens).map (·.refIndex)).Nodup ∧
    ((alignSequences referenceTokens targetTokens).map (·.targetIndex)).Nodup ∧
    List.Sorted (fun a b : Alignment => a.refIndex ≤ b.refIndex)
      (alignSequences referenceTokens targetTokens) := by
  haveI : IsTotal Alignment (fun a b : Alignment => a.refIndex ≤ b.refIndex) :=
    ⟨fun a b => Nat.le_total _ _⟩
  haveI : IsTrans Alignment (fun a b : Alignment => a.refIndex ≤ b.refIndex) :=
    ⟨fun _ _ _ hab hbc => le_trans hab hbc⟩
  unfold alignSequences filterAlignments
  obtain ⟨-, h2, h3⟩ := greedyFilter_spec
    (sortByDistance (referenceTokens.enum.filterMap
      (fun p => bestMatchAux p.1 p.2 targetTokens 0 none))) [] []
  set g := greedyFilter (sortByDistance (referenceTokens.enum.filterMap
      (fun p => bestMatchAux p.1 p.2 targetTokens 0 none))) [] [] with hg
  have hperm : (sortByRefIndex g).Perm g :=
    List.perm_insertionSort (fun a b : Alignment => a.refIndex ≤ b.refIndex) g
  refine ⟨?_, ?_, ?_⟩
  · exact ((hperm.map (·.refIndex)).nodup_iff).mpr h2
  · exact ((hperm.map (·.targetIndex)).nodup_iff).mpr h3
  · exact List.sorted_insertionSort (fun a b : Alignment => a.refIndex ≤ b.refIndex) g

end SequenceAligner

namespace TextAlignmentService

lemma mem_le_maxTargetIndex {a : SequenceAligner.Alignment}
    {l : List SequenceAligner.Alignment} (h : a ∈ l) :
    a.targetIndex ≤ maxTargetIndex l := by
  induction l with
  | nil => cases h
  | cons b rest ih =>
    rcases List.mem_cons.mp h with h | h
    · subst h; exact le_max_left _ _
    · exact le_trans (ih h) (le_max_right _ _)

lemma maxTargetIndex_attained {l : List SequenceAligner.Alignment} (h : l ≠ []) :
    ∃ a ∈ l, maxTargetIndex l = a.targetIndex := by
  induction l with
  | nil => exact absurd rfl h
  | cons b rest ih =>
    rcases eq_or_ne rest ([] : List SequenceAligner.Alignment) with hrest | hrest
    · subst hrest
      exact ⟨b, List.mem_cons_self _ _, by simp [maxTargetIndex]⟩
    · obtain ⟨a, ha, hmax⟩ := ih hrest
      have hunfold : maxTargetIndex (b :: rest) = max b.targetIndex (maxTargetIndex rest) := rfl
      rcases le_total b.targetIndex (maxTargetIndex rest) with hle | hle
      · exact ⟨a, List.mem_cons_of_mem _ ha, by rw [hunfold, max_eq_right hle, hmax]⟩
      · exact ⟨b, List.mem_cons_self _ _, by rw [hunfold, max_eq_left hle]⟩

lemma alignStep_text (transcriptTokens : List Str) (timedWords : List SequenceAligner.TimedWord)
    (c : ℕ) (segment : Str) :
    (alignStep transcriptTokens timedWords c segment).1.text = segment := by
  unfold alignStep
  generalize TextNormalizer.tokenize (TextNormalizer.normalizeText segment) = segTokens
  generalize transcriptTokens.drop c = rem
  generalize SequenceAligner.alignSequences segTokens rem = la
  split_ifs <;> rfl

lemma alignStep_aligns_lb (transcriptTokens : List Str)
    (timedWords : List SequenceAligner.TimedWord) (c : ℕ) (segment : Str) :
    ∀ a ∈ (alignStep transcriptTokens timedWords c segment).2.1, c ≤ a.targetIndex := by
  unfold alignStep
  generalize TextNormalizer.tokenize (TextNormalizer.normalizeText segment) = segTokens
  generalize transcriptTokens.drop c = rem
  generalize SequenceAligner.alignSequences segTokens rem = la
  split_ifs
  · intro a ha; exact absurd ha (List.not_mem_nil a)
  · intro a ha; exact absurd ha (List.not_mem_nil a)
  · intro a ha; exact absurd ha (List.not_mem_nil a)
  · intro a ha
    obtain ⟨b, -, hb⟩ := List.mem_map.mp ha
    subst hb
    exact Nat.le_add_left _ _

lemma alignStep_aligns_ub (transcriptTokens : List Str)
    (timedWords : List SequenceAligner.TimedWord) (c : ℕ) (segment : Str) :
    ∀ a ∈ (alignStep transcriptTokens timedWords c segment).2.1,
      a.targetIndex < (alignStep transcriptTokens timedWords c segment).2.2 := by
  unfold alignStep
  generalize TextNormalizer.tokenize (TextNormalizer.normalizeText segment) = segTokens
  generalize transcriptTokens.drop c = rem
  generalize SequenceAligner.alignSequences segTokens rem = la
  split_ifs
  · intro a ha; exact absurd ha (List.not_mem_nil a)
  · intro a ha; exact absurd ha (List.not_mem_nil a)
  · intro a ha; exact absurd ha (List.not_mem_nil a)
  · intro a ha
    exact Nat.lt_succ_of_le (mem_le_maxTargetIndex ha)

lemma alignStep_cursor_le (transcriptTokens : List Str)
    (timedWords : List SequenceAligner.TimedWord) (c : ℕ) (segment : Str) :
    c ≤ (alignStep transcriptTokens timedWords c segment).2.2 := by
  rcases eq_or_ne (alignStep transcriptTokens timedWords c segment).2.1 [] with hnil | hne
  · rw [alignStep] at hnil ⊢
    generalize hseg : TextNormalizer.tokenize (TextNormalizer.normalizeText segment) = segTokens
      at hnil ⊢
    generalize hrem : transcriptTokens.drop c = rem at hnil ⊢
    generalize hla : SequenceAligner.alignSequences segTokens rem = la at hnil ⊢
    split_ifs at hnil ⊢
    · exact le_refl c
    · exact le_refl c
    · exact le_refl c
    · exfalso
      rename_i hloc
      rw [List.isEmpty_iff] at hloc
      exact hloc (List.map_eq_nil_iff.mp hnil)
  · obtain ⟨a, ha⟩ := List.exists_mem_of_ne_nil _ hne
    exact le_trans (alignStep_aligns_lb _ _ _ _ a ha)
      (le_of_lt (alignStep_aligns_ub _ _ _ _ a ha))

lemma alignLoopInfo_length (transcriptTokens : List Str)
    (timedWords : List SequenceAligner.TimedWord) (c : ℕ) (segments : List Str) :
    (alignLoopInfo transcriptTokens timedWords c segments).length = segments.length := by
  induction segments generalizing c with
  | nil => rfl
  | cons seg rest ih => simpa [alignLoopInfo] using ih _

lemma alignLoopInfo_texts (transcriptTokens : List Str)
    (timedWords : List SequenceAligner.TimedWord) (c : ℕ) (segments : List Str) :
    (alignLoopInfo transcriptTokens timedWords c segments).map (·.1.text) = segments := by
  induction segments generalizing c with
  | nil => rfl
  | cons seg rest ih =>
    simp only [alignLoopInfo, List.map_cons]
    rw [alignStep_text, ih]

lemma alignLoopInfo_lb (transcriptTokens : List Str)
    (timedWords : List SequenceAligner.TimedWord) (c : ℕ) (segments : List Str) :
    ∀ p ∈ alignLoopInfo transcriptTokens timedWords c segments, ∀ a ∈ p.2,
      c ≤ a.targetIndex := by
  induction segments generalizing c with
  | nil => intro p hp; exact absurd hp (List.not_mem_nil p)
  | cons seg rest ih =>
    intro p hp a ha
    simp only [alignLoopInfo] at hp
    rcases List.mem_cons.mp hp with hp | hp
    · subst hp
      exact alignStep_aligns_lb _ _ _ _ a ha
    · exact le_trans (alignStep_cursor_le transcriptTokens timedWords c seg)
        (ih _ p hp a ha)

lemma alignLoopInfo_mono (transcriptTokens : List Str)
    (timedWords : List SequenceAligner.TimedWord) (segments : List Str) (c : ℕ)
    (i j : ℕ) (ei ej : TextTiming × List SequenceAligner.Alignment) (hij : i < j)
    (hi : (alignLoopInfo transcriptTokens timedWords c segments)[i]? = some ei)
    (hj : (alignLoopInfo transcriptTokens timedWords c segments)[j]? = some ej) :
    ∀ a ∈ ei.2, ∀ b ∈ ej.2, a.targetIndex < b.targetIndex := by
  induction segments generalizing c i j with
  | nil => simp [alignLoopInfo] at hi
  | cons seg rest ih =>
    simp only [alignLoopInfo] at hi hj
    match j, hij with
    | j + 1, hij =>
      rw [List.getElem?_cons_succ] at hj
      match i with
      | 0 =>
        rw [List.getElem?_cons_zero] at hi
        injection hi with hi
        subst hi
        intro a ha b hb
        have hb' : ej ∈ alignLoopInfo transcriptTokens timedWords
            (alignStep transcriptTokens timedWords c seg).2.2 rest :=
          List.getElem?_mem hj
        exact lt_of_lt_of_le (alignStep_aligns_ub _ _ _ _ a ha)
          (alignLoopInfo_lb _ _ _ _ ej hb' b hb)
      | i + 1 =>
        rw [List.getElem?_cons_succ] at hi
        exact ih _ i j (Nat.lt_of_succ_lt_succ hij) hi hj

/-- Claim C3: in `alignSegmentsWithTranscript`, for segments `i < j` that both
resolved to at least one alignment, every global target index matched for
segment `j` is at least the maximum global target index matched for segment
`i` plus one: the sliding-window cursor never lets a later segment claim a
transcript token consumed by an earlier one. -/
theorem alignSegments_cursor_monotone (transcriptText : Str)
    (transcriptWords : List TranscriptWord) (segments : List Str) (i j : ℕ)
    (ei ej : TextTiming × List SequenceAligner.Alignment) (hij : i < j)
    (hi : (alignSegmentsWithTranscriptInfo transcriptText transcriptWords segments)[i]? = some ei)
    (hj : (alignSegmentsWithTranscriptInfo transcriptText transcriptWords segments)[j]? = some ej)
    (hne : ei.2 ≠ []) :
    ∀ b ∈ ej.2, maxTargetIndex ei.2 + 1 ≤ b.targetIndex := by
  intro b hb
  unfold alignSegmentsWithTranscriptInfo at hi hj
  have hmono := alignLoopInfo_mono _ _ _ _ i j ei ej hij hi hj
  obtain ⟨a, ha, hmax⟩ := maxTargetIndex_attained hne
  rw [hmax]
  exact Nat.succ_le_of_lt (hmono a ha b hb)

/-- Witness for C3 on a concrete transcript and two segments that both
resolve: segment 1 may only match strictly after segment 0's last token. -/
theorem alignSegments_cursor_monotone_witness :
    maxTargetIndex [(⟨0, 0, 0⟩ : SequenceAligner.Alignment)] + 1 ≤
      (⟨0, 1, 0⟩ : SequenceAligner.Alignment).targetIndex :=
  alignSegments_cursor_monotone "aa bb".toList
    [⟨"aa".toList, 0, 300, 1⟩, ⟨"bb".toList, 300, 600, 1⟩]
    ["aa".toList, "bb".toList] 0 1
    (⟨"aa".toList, 0, 300, 300⟩, [⟨0, 0, 0⟩]) (⟨"bb".toList, 300, 600, 300⟩, [⟨0, 1, 0⟩])
    (by decide) (by decide) (by decide) (by decide) ⟨0, 1, 0⟩ (by decide)

/-- Claim C8: `alignSegmentsWithTranscript` returns exactly one timing entry
per input segment, in input order (the entry texts list the segments
themselves). -/
theorem alignSegments_length_order (transcriptText : Str)
    (transcriptWords : List TranscriptWord) (segments : List Str) :
    (alignSegmentsWithTranscript transcriptText transcriptWords segments).length =
        segments.length ∧
      (alignSegmentsWithTranscript transcriptText transcriptWords segments).map (·.text) =
        segments := by
  constructor
  · unfold alignSegmentsWithTranscript alignSegmentsWithTranscriptInfo
    rw [List.length_map]
    exact alignLoopInfo_length _ _ _ _
  · unfold alignSegmentsWithTranscript alignSegmentsWithTranscriptInfo
    rw [List.map_map]
    exact alignLoopInfo_texts _ _ _ _

/-- Claim C9: at every position, the timing entry returned by
`alignSegmentsWithTranscript` carries the corresponding input segment string
verbatim as its `text` field. -/
theorem alignSegments_text_verbatim (transcriptText : Str)
    (transcriptWords : List TranscriptWord) (segments : List Str) (i : ℕ) :
    ((alignSegmentsWithTranscript transcriptText transcriptWords segments)[i]?).map (·.text) =
      segments[i]? := by
  have h := (alignSegments_length_order transcriptText transcriptWords segments).2
  conv_rhs => rw [← h]
  rw [List.getElem?_map]

end TextAlignmentService

namespace AssemblyClient

/-- Scan of `matchTextWithTiming` locating the first and last transcript word
covering the character range `[segmentIndex, segmentIndex + segLen)`:
walks the words accumulating an approximate character position (word length
plus one for the following space), fixing `startWord` at the first word whose
position has reached `segmentIndex`, and breaking at the first word whose end
position reaches the end of the segment once `startWord` is set. -/
def findBoundaryWords (segmentIndex segLen : ℕ) :
    List TextAlignmentService.TranscriptWord → ℕ →
      Option TextAlignmentService.TranscriptWord →
    Option TextAlignmentService.TranscriptWord × Option TextAlignmentService.TranscriptWord
  | [], _, startWord => (startWord, none)
  | w :: ws, currentPosition, startWord =>
      let wordEndPosition := currentPosition + w.text.length
      let startWord' :=
        if currentPosition ≥ segmentIndex ∧ startWord.isNone then some w else startWord
      if wordEndPosition ≥ segmentIndex + segLen ∧ startWord'.isSome then (startWord', some w)
      else findBoundaryWords segmentIndex segLen ws (currentPosition + w.text.length + 1) startWord'

/-- One segment of `AssemblyClient.matchTextWithTiming`: case-insensitive
substring search, word-boundary scan, and the character-ratio fallback
estimate (rounded); unmatched segments get the all-zero placeholder. -/
def matchSegment (textLower : Str) (words : List TextAlignmentService.TranscriptWord)
    (segment : Str) : TextAlignmentService.TextTiming :=
  let segmentLower := JsString.toLowerStr segment
  match JsString.indexOfFrom textLower segmentLower 0 with
  | none => ⟨segment, 0, 0, 0⟩
  | some segmentIndex =>
      match findBoundaryWords segmentIndex segmentLower.length words 0 none with
      | (some startWord, some endWord) =>
          ⟨segment, startWord.start, endWord.end_, endWord.end_ - startWord.start⟩
      | _ =>
          match words with
          | [] => ⟨segment, 0, 0, 0⟩
          | firstWord :: rest =>
              let lastWord := (firstWord :: rest).getLast (by simp)
              let segmentRatio : ℚ := (segmentIndex : ℚ) / (textLower.length : ℚ)
              let segmentEndRatio : ℚ :=
                ((segmentIndex : ℚ) + (segmentLower.length : ℚ)) / (textLower.length : ℚ)
              let totalDuration : ℚ := (lastWord.end_ : ℚ) - (firstWord.start : ℚ)
              let estimatedStart : ℚ := (firstWord.start : ℚ) + totalDuration * segmentRatio
              let estimatedEnd : ℚ := (firstWord.start : ℚ) + totalDuration * segmentEndRatio
              ⟨segment, round estimatedStart, round estimatedEnd,
                round (estimatedEnd - estimatedStart)⟩

/-- `AssemblyClient.matchTextWithTiming`: match every segment against the
transcription, always producing one `TextTiming` per segment. -/
def matchTextWithTiming (text : Str) (words : List TextAlignmentService.TranscriptWord)
    (segments : List Str) : List TextAlignmentService.TextTiming :=
  segments.map (matchSegment (JsString.toLowerStr text) words)

end AssemblyClient

namespace SyncService

/-- Index-aware map used to model the indexed `for` loops of the two
reconciliation passes. -/
def mapIdxAux (f : ℕ → α → β) : ℕ → List α → List β
  | _, [] => []
  | i, x :: xs => f i x :: mapIdxAux f (i + 1) xs

lemma mapIdxAux_getElem? (f : ℕ → α → β) (i j : ℕ) (l : List α) :
    (mapIdxAux f i l)[j]? = (l[j]?).map (f (i + j)) := by
  induction l generalizing i j with
  | nil => simp [mapIdxAux]
  | cons x xs ih =>
    cases j with
    | zero => simp [mapIdxAux]
    | succ j =>
      rw [mapIdxAux, List.getElem?_cons_succ, List.getElem?_cons_succ, ih]
      ring_nf

lemma mapIdxAux_length (f : ℕ → α → β) (i : ℕ) (l : List α) :
    (mapIdxAux f i l).length = l.length := by
  induction l generalizing i with
  | nil => rfl
  | cons x xs ih => simp [mapIdxAux, ih]

/-- A point with an assigned stock video and (once reconciled) timing, as the
`PointWithVideo` shape mutated by `SyncService.synchronizeVoiceOverWithPoints`
(`script-types.ts`). -/
structure PointWithVideo where
  text : Str
  videoId : Str
  videoUrl : Str
  videoThumbnail : Str
  startTime : Option ℚ
  endTime : Option ℚ
deriving DecidableEq, Repr

/-- The `PointWithTiming` shape returned to callers (`assembly-types.ts`):
each field rounded to an integer by `Math.round`. -/
structure PointWithTiming where
  text : Str
  videoId : Str
  videoUrl : Str
  videoThumbnail : Str
  startTime : ℤ
  endTime : ℤ
  duration : ℤ
deriving DecidableEq, Repr

/-- A section being processed (`script-types.ts`, `ProcessedSection`). -/
structure ProcessedSection where
  sectionId : Str
  voiceOverId : Option Str
  audioUrl : Option Str
  sectionOffset : Option ℚ
  sectionEndTime : Option ℚ
  points : List PointWithVideo
deriving DecidableEq, Repr

/-- A voice-over record as far as the synchronization path reads it
(`tts-types.ts`, `VoiceOver`). -/
structure VoiceOver where
  id : Str
  status : Str
  audioUrl : Option Str
deriving DecidableEq, Repr

/-- A transcription result `{ text, words }` handed to the synchronizer. -/
structure TranscriptData where
  text : Str
  words : Option (List TextAlignmentService.TranscriptWord)

/-- `SECTION_END_BUFFER`: buffer added at the end of each section (ms). -/
def SECTION_END_BUFFER : ℚ := 500

/-- The `originalTimings[i] || { startTime: 0, endTime: 0 }` default. -/
def zeroTiming : TextAlignmentService.TextTiming := ⟨[], 0, 0, 0⟩

/-- First pass of `synchronizeVoiceOverWithPoints`: set start times. The
first point starts at the section offset; any other point takes the previous
point's end time when that is defined (it reads the value present before the
second pass runs) and otherwise falls back to offset plus the raw start. -/
def pass1 (offset : ℚ) (originalTimings : List TextAlignmentService.TextTiming)
    (points : List PointWithVideo) : List PointWithVideo :=
  mapIdxAux (fun i p =>
    let fallbackStart : ℚ := offset + (((originalTimings[i]?).getD zeroTiming).startTime : ℚ)
    if i = 0 then { p with startTime := some offset }
    else
      match points[i - 1]? with
      | some prevPoint =>
          match prevPoint.endTime with
          | some e => { p with startTime := some e }
          | none => { p with startTime := some fallbackStart }
      | none => { p with startTime := some fallbackStart })
    0 points

/-- Second pass: set end times. A non-final point ends where the next point
(as updated by the first pass) starts; the final point ends at its start plus
the raw aligned duration. -/
def pass2 (originalTimings : List TextAlignmentService.TextTiming)
    (pts : List PointWithVideo) : List PointWithVideo :=
  mapIdxAux (fun i p =>
    let originalDuration : ℚ := (((originalTimings[i]?).getD zeroTiming).endTime : ℚ) -
      (((originalTimings[i]?).getD zeroTiming).startTime : ℚ)
    let fallbackEnd : ℚ := p.startTime.getD 0 + originalDuration
    if i < pts.length - 1 then
      match pts[i + 1]? with
      | some nextPoint =>
          match nextPoint.startTime with
          | some s => { p with endTime := some s }
          | none => { p with endTime := some fallbackEnd }
      | none => { p with endTime := some fallbackEnd }
    else
      { p with endTime := some fallbackEnd })
    0 pts

/-- Buffer step: add `SECTION_END_BUFFER` to the last point's end time and
record it as the section end; if there is no such value, fall back to
offset + last raw end + buffer. -/
def applyBuffer (offset : ℚ) (originalTimings : List TextAlignmentService.TextTiming)
    (pts : List PointWithVideo) : List PointWithVideo × ℚ :=
  match pts.getLast? with
  | some lastPoint =>
      match lastPoint.endTime with
      | some e =>
          (pts.set (pts.length - 1) { lastPoint with endTime := some (e + SECTION_END_BUFFER) },
            e + SECTION_END_BUFFER)
      | none =>
          (pts, offset + ((((originalTimings.getLast?).getD zeroTiming).endTime : ℚ)) +
            SECTION_END_BUFFER)
  | none =>
      (pts, offset + ((((originalTimings.getLast?).getD zeroTiming).endTime : ℚ)) +
        SECTION_END_BUFFER)

/-- The two reconciliation passes followed by the buffer step. -/
def reconcilePoints (offset : ℚ) (originalTimings : List TextAlignmentService.TextTiming)
    (points : List PointWithVideo) : List PointWithVideo × ℚ :=
  applyBuffer offset originalTimings (pass2 originalTimings (pass1 offset originalTimings points))

/-- Rounding map producing the returned `PointWithTiming` entries. -/
def toPointWithTiming (p : PointWithVideo) : PointWithTiming :=
  ⟨p.text, p.videoId, p.videoUrl, p.videoThumbnail,
    round (p.startTime.getD 0), round (p.endTime.getD 0),
    round (p.endTime.getD 0 - p.startTime.getD 0)⟩

/-- The transcribe branch of `synchronizeVoiceOverWithPoints`: look the
voice-over up, require completion and an audio URL, transcribe (modelled by
`freshTranscript`), and require word-level details. -/
def transcribeFallback (voiceOver : Option VoiceOver) (freshTranscript : TranscriptData) :
    Except Str TranscriptData :=
  match voiceOver with
  | none => Except.error "Voice-over not found".toList
  | some vo =>
      if vo.status ≠ "completed".toList ∨ vo.audioUrl = none then
        Except.error "Voice-over is not completed or has no audio URL".toList
      else
        match freshTranscript.words with
        | some (w :: ws) => Except.ok { freshTranscript with words := some (w :: ws) }
        | _ => Except.error "Transcription did not return word-level details".toList

/-- Transcript selection of `synchronizeVoiceOverWithPoints`: use the
existing transcript when it has a non-empty word list, otherwise transcribe
the voice-over. -/
def resolveTranscript (voiceOver : Option VoiceOver) (freshTranscript : TranscriptData)
    (existingTranscript : Option TranscriptData) : Except Str TranscriptData :=
  match existingTranscript with
  | some t =>
      match t.words with
      | some (w :: ws) => Except.ok { t with words := some (w :: ws) }
      | _ => transcribeFallback voiceOver freshTranscript
  | none => transcribeFallback voiceOver freshTranscript

/-- `SyncService.synchronizeVoiceOverWithPoints`. The external transcription
call (`assemblyClient.transcribeAudio`) is modelled by the `freshTranscript`
argument; error strings stand for the thrown `Error`s of the source (the
interpolated IDs are omitted). Returns the points-with-timing array together
with the section as mutated in place. -/
def synchronizeVoiceOverWithPoints (voiceOver : Option VoiceOver)
    (freshTranscript : TranscriptData) (sec : ProcessedSection)
    (previousSectionEndTime : Option ℚ) (existingTranscript : Option TranscriptData) :
    Except Str (List PointWithTiming × ProcessedSection) :=
  match resolveTranscript voiceOver freshTranscript existingTranscript with
  | Except.error e => Except.error e
  | Except.ok transcript =>
      match transcript.words with
      | none => Except.error "Transcript words are undefined".toList
      | some ws =>
          let pointTexts := sec.points.map (·.text)
          let timings := AssemblyClient.matchTextWithTiming transcript.text ws pointTexts
          let sectionOffset : ℚ := previousSectionEndTime.getD 0
          let r := reconcilePoints sectionOffset timings sec.points
          Except.ok (r.1.map toPointWithTiming,
            { sec with
                sectionOffset := some sectionOffset
                sectionEndTime := some r.2
                points := r.1 })

end SyncService

namespace SyncService

/-- Start time assigned by the first pass to point `i` of a section whose
points carry no prior timing: the offset for point 0, otherwise the fallback
`offset + rawStart(i)` (the previous point's end time is still undefined
while the first pass runs). -/
def startVal (offset : ℚ) (originalTimings : List TextAlignmentService.TextTiming) (i : ℕ) : ℚ :=
  if i = 0 then offset
  else offset + (((originalTimings[i]?).getD zeroTiming).startTime : ℚ)

/-- Raw aligned duration of point `i`. -/
def durVal (originalTimings : List TextAlignmentService.TextTiming) (i : ℕ) : ℚ :=
  (((originalTimings[i]?).getD zeroTiming).endTime : ℚ) -
    (((originalTimings[i]?).getD zeroTiming).startTime : ℚ)

/-- End time assigned by the second pass (before the trailing buffer). -/
def endVal (offset : ℚ) (originalTimings : List TextAlignmentService.TextTiming)
    (n i : ℕ) : ℚ :=
  if i < n - 1 then startVal offset originalTimings (i + 1)
  else startVal offset originalTimings i + durVal originalTimings i

lemma pass1_length (offset : ℚ) (orig : List TextAlignmentService.TextTiming)
    (points : List PointWithVideo) : (pass1 offset orig points).length = points.length :=
  mapIdxAux_length _ _ _

lemma pass2_length (orig : List TextAlignmentService.TextTiming)
    (pts : List PointWithVideo) : (pass2 orig pts).length = pts.length :=
  mapIdxAux_length _ _ _

lemma pass1_spec (offset : ℚ) (orig : List TextAlignmentService.TextTiming)
    (points : List PointWithVideo)
    (hend : ∀ p ∈ points, p.endTime = none) (i : ℕ) :
    (pass1 offset orig points)[i]? =
      (points[i]?).map (fun p => { p with startTime := some (startVal offset orig i) }) := by
  rw [pass1, mapIdxAux_getElem?, Nat.zero_add]
  cases hp : points[i]? with
  | none => rfl
  | some p =>
    cases i with
    | zero => simp [startVal]
    | succ j =>
      cases hq : points[j]? with
      | none => simp [hq, startVal]
      | some q =>
        have hqe : q.endTime = none := hend q (List.getElem?_mem hq)
        simp [hq, hqe, startVal]

lemma pass2_spec (offset : ℚ) (orig : List TextAlignmentService.TextTiming)
    (points : List PointWithVideo)
    (hend : ∀ p ∈ points, p.endTime = none) (i : ℕ) :
    (pass2 orig (pass1 offset orig points))[i]? =
      ((pass1 offset orig points)[i]?).map
        (fun p => { p with endTime := some (endVal offset orig points.length i) }) := by
  rw [pass2, mapIdxAux_getElem?, Nat.zero_add]
  cases hp : (pass1 offset orig points)[i]? with
  | none => rfl
  | some p =>
    have hpl : (pass1 offset orig points).length = points.length := pass1_length _ _ _
    simp only [Option.map_some']
    refine congrArg some ?_
    dsimp only
    rw [hpl]
    by_cases hi : i < points.length - 1
    · rw [if_pos hi]
      have hi1 : i + 1 < points.length := by omega
      have hnext := pass1_spec offset orig points hend (i + 1)
      rw [List.getElem?_eq_getElem hi1, Option.map_some'] at hnext
      rw [hnext]
      rw [endVal, if_pos hi]
    · rw [if_neg hi]
      rw [endVal, if_neg hi]
      have hsp := pass1_spec offset orig points hend i
      rw [hp] at hsp
      cases hqq : points[i]? with
      | none => rw [hqq] at hsp; simp at hsp
      | some q =>
        rw [hqq, Option.map_some'] at hsp
        have hpeq := Option.some_inj.mp hsp
        rw [hpeq]
        simp [durVal]

lemma reconcile_combined (offset : ℚ) (orig : List TextAlignmentService.TextTiming)
    (points : List PointWithVideo)
    (hend : ∀ p ∈ points, p.endTime = none) (i : ℕ) :
    (pass2 orig (pass1 offset orig points))[i]? =
      (points[i]?).map (fun p : PointWithVideo =>
        { p with startTime := some (startVal offset orig i)
                 endTime := some (endVal offset orig points.length i) }) := by
  rw [pass2_spec offset orig points hend i, pass1_spec offset orig points hend i,
    Option.map_map]
  rfl

lemma applyBuffer_of_last (offset : ℚ) (orig : List TextAlignmentService.TextTiming)
    (pts : List PointWithVideo) (lastp : PointWithVideo) (e : ℚ)
    (hlast : pts.getLast? = some lastp) (he : lastp.endTime = some e) :
    applyBuffer offset orig pts =
      (pts.set (pts.length - 1) { lastp with endTime := some (e + SECTION_END_BUFFER) },
        e + SECTION_END_BUFFER) := by
  rw [applyBuffer, hlast]
  dsimp only
  rw [he]


lemma reconcilePoints_spec (offset : ℚ) (orig : List TextAlignmentService.TextTiming)
    (points : List PointWithVideo) (hne : points ≠ [])
    (hend : ∀ p ∈ points, p.endTime = none) :
    (reconcilePoints offset orig points).2 =
        endVal offset orig points.length (points.length - 1) + SECTION_END_BUFFER ∧
      ∀ i : ℕ, ((reconcilePoints offset orig points).1)[i]? =
        (points[i]?).map (fun p : PointWithVideo =>
          { p with startTime := some (startVal offset orig i)
                   endTime := some (endVal offset orig points.length i +
                     (if i = points.length - 1 then SECTION_END_BUFFER else 0)) }) := by
  have hn : 0 < points.length := List.length_pos.mpr hne
  have hlen : (pass2 orig (pass1 offset orig points)).length = points.length := by
    rw [pass2_length, pass1_length]
  have hlastelem : (pass2 orig (pass1 offset orig points))[points.length - 1]? =
      some { points[points.length - 1] with
               startTime := some (startVal offset orig (points.length - 1))
               endTime := some (endVal offset orig points.length (points.length - 1)) } := by
    rw [reconcile_combined offset orig points hend,
      List.getElem?_eq_getElem (by omega : points.length - 1 < points.length),
      Option.map_some']
  have hgetlast : (pass2 orig (pass1 offset orig points)).getLast? =
      some { points[points.length - 1] with
               startTime := some (startVal offset orig (points.length - 1))
               endTime := some (endVal offset orig points.length (points.length - 1)) } := by
    rw [List.getLast?_eq_getElem?]
    simp only [hlen]
    exact hlastelem
  have hbuf := applyBuffer_of_last offset orig (pass2 orig (pass1 offset orig points))
    _ _ hgetlast rfl
  rw [reconcilePoints, hbuf]
  constructor
  · rfl
  · intro i
    by_cases hi : i = points.length - 1
    · subst hi
      simp only [hlen]
      rw [List.getElem?_set_self (by omega)]
      rw [List.getElem?_eq_getElem (by omega : points.length - 1 < points.length),
        Option.map_some']
      simp
    · simp only [hlen]
      rw [List.getElem?_set_ne (fun h => hi h.symm)]
      rw [reconcile_combined offset orig points hend i]
      cases hp : points[i]? with
      | none => rfl
      | some p => simp [hi]

lemma applyBuffer_fst_length (offset : ℚ) (orig : List TextAlignmentService.TextTiming)
    (pts : List PointWithVideo) : (applyBuffer offset orig pts).1.length = pts.length := by
  rw [applyBuffer]
  cases h : pts.getLast? with
  | none => rfl
  | some lastp =>
    dsimp only
    cases he : lastp.endTime with
    | none => rfl
    | some e => simp [List.length_set]

lemma reconcilePoints_fst_length (offset : ℚ) (orig : List TextAlignmentService.TextTiming)
    (points : List PointWithVideo) :
    (reconcilePoints offset orig points).1.length = points.length := by
  rw [reconcilePoints, applyBuffer_fst_length, pass2_length, pass1_length]

/-- Hypotheses under which the reconciled start/end sequence is
non-decreasing: raw start times from index 1 on are non-negative and
non-decreasing, and the last raw duration is at least -500 ms. -/
def RawStartsMonotone (raw : List TextAlignmentService.TextTiming) (n : ℕ) : Prop :=
  (∀ i : ℕ, 1 ≤ i → i + 1 < n →
      ((((raw[i]?).getD zeroTiming).startTime : ℚ)) ≤
        ((((raw[i + 1]?).getD zeroTiming).startTime : ℚ))) ∧
    (1 < n → (0 : ℚ) ≤ ((((raw[1]?).getD zeroTiming).startTime : ℚ))) ∧
    ((0 : ℚ) ≤ durVal raw (n - 1) + 500)

lemma synchronize_existing_eq (vo : Option VoiceOver) (fresh : TranscriptData)
    (sec : ProcessedSection) (prev : Option ℚ) (ttext : Str)
    (w : TextAlignmentService.TranscriptWord) (ws : List TextAlignmentService.TranscriptWord) :
    synchronizeVoiceOverWithPoints vo fresh sec prev (some ⟨ttext, some (w :: ws)⟩) =
      Except.ok
        ((reconcilePoints (prev.getD 0)
            (AssemblyClient.matchTextWithTiming ttext (w :: ws) (sec.points.map (·.text)))
            sec.points).1.map toPointWithTiming,
          { sec with
              sectionOffset := some (prev.getD 0)
              sectionEndTime := some (reconcilePoints (prev.getD 0)
                (AssemblyClient.matchTextWithTiming ttext (w :: ws) (sec.points.map (·.text)))
                sec.points).2
              points := (reconcilePoints (prev.getD 0)
                (AssemblyClient.matchTextWithTiming ttext (w :: ws) (sec.points.map (·.text))
                ) sec.points).1 }) := rfl



lemma endVal_last (offset : ℚ) (raw : List TextAlignmentService.TextTiming) (n : ℕ) :
    endVal offset raw n (n - 1) = startVal offset raw (n - 1) + durVal raw (n - 1) := by
  rw [endVal, if_neg (lt_irrefl _)]

lemma endVal_mid (offset : ℚ) (raw : List TextAlignmentService.TextTiming) (n i : ℕ)
    (h : i < n - 1) : endVal offset raw n i = startVal offset raw (i + 1) := by
  rw [endVal, if_pos h]

lemma startVal_zero (offset : ℚ) (raw : List TextAlignmentService.TextTiming) :
    startVal offset raw 0 = offset := by
  rw [startVal, if_pos rfl]

lemma startVal_succ (offset : ℚ) (raw : List TextAlignmentService.TextTiming) (j : ℕ) :
    startVal offset raw (j + 1) =
      offset + ((((raw[j + 1]?).getD zeroTiming).startTime : ℚ)) := by
  rw [startVal, if_neg (Nat.succ_ne_zero j)]

/-- Claim C1 (amended): for a section with a non-empty points list whose
points have undefined start/end times, after `synchronizeVoiceOverWithPoints`
completes (here run with a usable existing transcript), every adjacent pair
of points satisfies `point[i].endTime == point[i+1].startTime`, the last
point's end time equals its start time plus the raw aligned duration of the
last point plus exactly 500 ms, and `sectionEndTime` is set to that same
value. The claim's further assertion that the start/end sequence is always
non-decreasing only holds under `RawStartsMonotone` (raw start times
non-negative and non-decreasing from index 1 on and last raw duration at
least -500 ms); without it the non-decreasing part is refuted by
`SyncService.synchronize_nondecreasing_counterexample`. -/
theorem synchronize_reconciliation (vo : Option VoiceOver) (fresh : TranscriptData)
    (sec : ProcessedSection) (prev : Option ℚ) (ttext : Str)
    (w : TextAlignmentService.TranscriptWord) (ws : List TextAlignmentService.TranscriptWord)
    (hne : sec.points ≠ [])
    (hinit : ∀ p ∈ sec.points, p.startTime = none ∧ p.endTime = none)
    (out : List PointWithTiming × ProcessedSection)
    (hout : synchronizeVoiceOverWithPoints vo fresh sec prev
      (some ⟨ttext, some (w :: ws)⟩) = Except.ok out) :
    (∀ i : ℕ, i + 1 < sec.points.length →
        (out.2.points[i]?).map (·.endTime) = (out.2.points[i + 1]?).map (·.startTime)) ∧
      (∀ p, out.2.points.getLast? = some p →
        p.endTime = some (p.startTime.getD 0 +
          durVal (AssemblyClient.matchTextWithTiming ttext (w :: ws) (sec.points.map (·.text)))
            (sec.points.length - 1) + 500)) ∧
      (∀ p, out.2.points.getLast? = some p → out.2.sectionEndTime = p.endTime) ∧
      (RawStartsMonotone
          (AssemblyClient.matchTextWithTiming ttext (w :: ws) (sec.points.map (·.text)))
          sec.points.length →
        ∀ (i : ℕ) p, out.2.points[i]? = some p →
          p.startTime.getD 0 ≤ p.endTime.getD 0) := by
  rw [synchronize_existing_eq] at hout
  injection hout with hout
  subst hout
  have hend : ∀ p ∈ sec.points, p.endTime = none := fun p hp => (hinit p hp).2
  have hnpos : 0 < sec.points.length := List.length_pos.mpr hne
  obtain ⟨hsec, houtpts⟩ := reconcilePoints_spec (prev.getD 0)
    (AssemblyClient.matchTextWithTiming ttext (w :: ws) (sec.points.map (·.text)))
    sec.points hne hend
  refine ⟨?_, ?_, ?_, ?_⟩
  · -- adjacency
    intro i hi
    have h1 : i < sec.points.length := by omega
    have h3 : i ≠ sec.points.length - 1 := by omega
    have h4 : i < sec.points.length - 1 := by omega
    rw [houtpts i, houtpts (i + 1), List.getElem?_eq_getElem h1, List.getElem?_eq_getElem hi]
    simp only [Option.map_some']
    rw [if_neg h3, endVal_mid _ _ _ _ h4]
    simp
  · -- final point: raw duration plus the 500 ms buffer
    intro p hp
    rw [List.getLast?_eq_getElem?, reconcilePoints_fst_length] at hp
    rw [houtpts (sec.points.length - 1),
      List.getElem?_eq_getElem (show sec.points.length - 1 < sec.points.length by omega),
      Option.map_some'] at hp
    injection hp with hp
    subst hp
    simp only [Option.getD_some, if_pos rfl]
    rw [endVal_last]
    norm_num [SECTION_END_BUFFER]
  · -- sectionEndTime equals the buffered final end
    intro p hp
    rw [List.getLast?_eq_getElem?, reconcilePoints_fst_length] at hp
    rw [houtpts (sec.points.length - 1),
      List.getElem?_eq_getElem (show sec.points.length - 1 < sec.points.length by omega),
      Option.map_some'] at hp
    injection hp with hp
    subst hp
    show some (reconcilePoints _ _ _).2 = _
    rw [hsec]
    simp
  · -- conditional non-decreasing sequence
    rintro ⟨hmono, hfirst, hlast⟩ i p hip
    have hi : i < sec.points.length := by
      by_contra hlt
      rw [houtpts i, List.getElem?_eq_none_iff.mpr (by omega)] at hip
      simp at hip
    rw [houtpts i, List.getElem?_eq_getElem hi, Option.map_some'] at hip
    injection hip with hip
    subst hip
    simp only [Option.getD_some]
    by_cases hil : i = sec.points.length - 1
    · subst hil
      rw [if_pos rfl, endVal_last]
      have h5 : (0 : ℚ) ≤ durVal (AssemblyClient.matchTextWithTiming ttext (w :: ws)
          (sec.points.map (·.text))) (sec.points.length - 1) + 500 := hlast
      have hb : SECTION_END_BUFFER = (500 : ℚ) := rfl
      rw [hb]
      linarith
    · have hlt : i < sec.points.length - 1 := by omega
      rw [if_neg hil, endVal_mid _ _ _ _ hlt, add_zero]
      cases i with
      | zero =>
        rw [startVal_zero, startVal_succ]
        have := hfirst (by omega)
        linarith
      | succ j =>
        rw [startVal_succ, startVal_succ]
        have := hmono (j + 1) (by omega) (by omega)
        linarith

/-- Counterexample to C1 as stated: three points over a transcript in which
the third point never occurs (raw timing falls back to zero), starting from
undefined times. The middle point is assigned start 300 ms but end 0 ms, so
the start/end sequence is not non-decreasing, although adjacency still
holds. -/
theorem synchronize_nondecreasing_counterexample :
    ((synchronizeVoiceOverWithPoints none ⟨[], none⟩
        ⟨"s1".toList, none, none, none, none,
          [⟨"aa".toList, [], [], [], none, none⟩,
           ⟨"bb".toList, [], [], [], none, none⟩,
           ⟨"zz".toList, [], [], [], none, none⟩]⟩
        none
        (some ⟨"aa bb".toList,
          some [⟨"aa".toList, 0, 300, 1⟩, ⟨"bb".toList, 300, 600, 1⟩]⟩)).toOption.map
      (fun out => (out.2.points[1]?).map (fun p => (p.startTime, p.endTime)))) =
      some (some (some (300 : ℚ), some (0 : ℚ))) ∧
    ¬ ((300 : ℚ) ≤ (0 : ℚ)) := by
  constructor
  · rw [synchronize_existing_eq]
    have hraw : AssemblyClient.matchTextWithTiming "aa bb".toList
        [⟨"aa".toList, 0, 300, 1⟩, ⟨"bb".toList, 300, 600, 1⟩]
        (([⟨"aa".toList, [], [], [], none, none⟩,
           ⟨"bb".toList, [], [], [], none, none⟩,
           ⟨"zz".toList, [], [], [], none, none⟩] : List PointWithVideo).map (·.text)) =
        [⟨"aa".toList, 0, 300, 300⟩, ⟨"bb".toList, 300, 600, 300⟩, ⟨"zz".toList, 0, 0, 0⟩] := by
      decide
    obtain ⟨-, hpts⟩ := reconcilePoints_spec ((none : Option ℚ).getD 0)
      (AssemblyClient.matchTextWithTiming "aa bb".toList
        [⟨"aa".toList, 0, 300, 1⟩, ⟨"bb".toList, 300, 600, 1⟩]
        (([⟨"aa".toList, [], [], [], none, none⟩,
           ⟨"bb".toList, [], [], [], none, none⟩,
           ⟨"zz".toList, [], [], [], none, none⟩] : List PointWithVideo).map (·.text)))
      [⟨"aa".toList, [], [], [], none, none⟩,
       ⟨"bb".toList, [], [], [], none, none⟩,
       ⟨"zz".toList, [], [], [], none, none⟩]
      (by decide) (by intro p hp; fin_cases hp <;> rfl)
    simp only [Except.toOption, Option.map_some']
    rw [hpts 1]
    rw [show ([⟨"aa".toList, [], [], [], none, none⟩,
       ⟨"bb".toList, [], [], [], none, none⟩,
       ⟨"zz".toList, [], [], [], none, none⟩] : List PointWithVideo)[1]? =
         some ⟨"bb".toList, [], [], [], none, none⟩ from rfl]
    simp only [Option.map_some']
    rw [hraw]
    norm_num [startVal, endVal, durVal, zeroTiming]
  · norm_num


/-- Witness for the amended C1 on a two-point section with a fully matched
transcript: the first point's end equals the second point's start. -/
theorem synchronize_reconciliation_witness :
    ((reconcilePoints ((none : Option ℚ).getD 0)
        (AssemblyClient.matchTextWithTiming "aa bb".toList
          [⟨"aa".toList, 0, 300, 1⟩, ⟨"bb".toList, 300, 600, 1⟩]
          (([⟨"aa".toList, [], [], [], none, none⟩,
             ⟨"bb".toList, [], [], [], none, none⟩] : List PointWithVideo).map (·.text)))
        [⟨"aa".toList, [], [], [], none, none⟩,
         ⟨"bb".toList, [], [], [], none, none⟩]).1[0]?).map (·.endTime) =
      ((reconcilePoints ((none : Option ℚ).getD 0)
        (AssemblyClient.matchTextWithTiming "aa bb".toList
          [⟨"aa".toList, 0, 300, 1⟩, ⟨"bb".toList, 300, 600, 1⟩]
          (([⟨"aa".toList, [], [], [], none, none⟩,
             ⟨"bb".toList, [], [], [], none, none⟩] : List PointWithVideo).map (·.text)))
        [⟨"aa".toList, [], [], [], none, none⟩,
         ⟨"bb".toList, [], [], [], none, none⟩]).1[1]?).map (·.startTime) :=
  (synchronize_reconciliation none ⟨[], none⟩
    ⟨"s1".toList, none, none, none, none,
      [⟨"aa".toList, [], [], [], none, none⟩, ⟨"bb".toList, [], [], [], none, none⟩]⟩
    none "aa bb".toList ⟨"aa".toList, 0, 300, 1⟩ [⟨"bb".toList, 300, 600, 1⟩]
    (by decide) (by intro p hp; fin_cases hp <;> exact ⟨rfl, rfl⟩) _
    (synchronize_existing_eq none ⟨[], none⟩
      ⟨"s1".toList, none, none, none, none,
        [⟨"aa".toList, [], [], [], none, none⟩, ⟨"bb".toList, [], [], [], none, none⟩]⟩
      none "aa bb".toList ⟨"aa".toList, 0, 300, 1⟩ [⟨"bb".toList, 300, 600, 1⟩])).1
    0 (by decide)

lemma transcribeFallback_error (voiceOver : Option VoiceOver) (fresh : TranscriptData)
    (hfresh : fresh.words = none ∨ fresh.words = some []) :
    ∃ msg, transcribeFallback voiceOver fresh = Except.error msg := by
  rcases voiceOver with _ | vo
  · exact ⟨_, rfl⟩
  · rw [transcribeFallback]
    by_cases hv : vo.status ≠ "completed".toList ∨ vo.audioUrl = none
    · rw [if_pos hv]
      exact ⟨_, rfl⟩
    · rw [if_neg hv]
      rcases hfresh with h | h <;> rw [h] <;> exact ⟨_, rfl⟩

/-- Claim C6: when timing reconciliation is requested and the word-level
transcription data is missing or empty — the provided transcript has no
usable words, and transcription (modelled by `freshTranscript`) also yields
none — `synchronizeVoiceOverWithPoints` propagates an error to the caller
instead of returning a section of zero-duration timings. -/
theorem synchronize_missing_words_error (voiceOver : Option VoiceOver)
    (fresh : TranscriptData) (sec : ProcessedSection) (prev : Option ℚ)
    (existing : Option TranscriptData)
    (hex : ∀ t, existing = some t → t.words = none ∨ t.words = some [])
    (hfresh : fresh.words = none ∨ fresh.words = some []) :
    ∃ msg, synchronizeVoiceOverWithPoints voiceOver fresh sec prev existing =
      Except.error msg := by
  obtain ⟨msg, hmsg⟩ := transcribeFallback_error voiceOver fresh hfresh
  have hres : resolveTranscript voiceOver fresh existing = Except.error msg := by
    rcases existing with _ | t
    · rw [resolveTranscript]
      exact hmsg
    · rw [resolveTranscript]
      rcases hex t rfl with h | h <;> rw [h] <;> exact hmsg
  refine ⟨msg, ?_⟩
  rw [synchronizeVoiceOverWithPoints, hres]

/-- Witness for C6: an existing transcript with an empty word list and no
transcribable voice-over yields an error result. -/
theorem synchronize_missing_words_error_witness :
    (synchronizeVoiceOverWithPoints none ⟨[], none⟩
        ⟨"s1".toList, none, none, none, none, []⟩ none
        (some ⟨"t".toList, some []⟩)).isOk = false := by
  obtain ⟨msg, hmsg⟩ := synchronize_missing_words_error none ⟨[], none⟩
    ⟨"s1".toList, none, none, none, none, []⟩ none (some ⟨"t".toList, some []⟩)
    (by intro t ht; injection ht with ht; rw [← ht]; exact Or.inr rfl)
    (Or.inl rfl)
  rw [hmsg]
  rfl

end SyncService

namespace ScriptService

/-- `script-service.ts`, per-section segmentation flow (`processScript`):
after a section is synchronized, `previousSectionEndTime` is set to the last
returned point's end time plus 0.5 ms ("a small gap between sections");
unchanged when no points were returned. -/
def nextPreviousSectionEndTime_seg (pointsWithTiming : List SyncService.PointWithTiming)
    (previousSectionEndTime : ℚ) : ℚ :=
  match pointsWithTiming.getLast? with
  | some lastPoint => (lastPoint.endTime : ℚ) + 1 / 2
  | none => previousSectionEndTime

/-- `script-service.ts`, transcript-extraction flow: `previousSectionEndTime`
is set to `Math.round` of the last returned point's end time. -/
def nextPreviousSectionEndTime_direct (pointsWithTiming : List SyncService.PointWithTiming)
    (previousSectionEndTime : ℚ) : ℚ :=
  match pointsWithTiming.getLast? with
  | some lastPoint => ((round ((lastPoint.endTime : ℚ)) : ℤ) : ℚ)
  | none => previousSectionEndTime

lemma synchronize_updates (vo : Option SyncService.VoiceOver)
    (fresh : SyncService.TranscriptData) (sec : SyncService.ProcessedSection)
    (prev : Option ℚ) (ttext : Str)
    (w : TextAlignmentService.TranscriptWord) (ws : List TextAlignmentService.TranscriptWord)
    (hne : sec.points ≠ [])
    (hinit : ∀ p ∈ sec.points, p.startTime = none ∧ p.endTime = none)
    (out : List SyncService.PointWithTiming × SyncService.ProcessedSection)
    (hout : SyncService.synchronizeVoiceOverWithPoints vo fresh sec prev
      (some ⟨ttext, some (w :: ws)⟩) = Except.ok out) (x : ℚ) :
    ∀ e : ℚ, out.2.sectionEndTime = some e →
      nextPreviousSectionEndTime_seg out.1 x = ((round e : ℤ) : ℚ) + 1 / 2 ∧
      nextPreviousSectionEndTime_direct out.1 x = ((round e : ℤ) : ℚ) := by
  rw [SyncService.synchronize_existing_eq] at hout
  injection hout with hout
  subst hout
  intro e he
  have hend : ∀ p ∈ sec.points, p.endTime = none := fun p hp => (hinit p hp).2
  have hnpos : 0 < sec.points.length := List.length_pos.mpr hne
  obtain ⟨hsec, hpts⟩ := SyncService.reconcilePoints_spec (prev.getD 0)
    (AssemblyClient.matchTextWithTiming ttext (w :: ws) (sec.points.map (·.text)))
    sec.points hne hend
  have he' : e = (SyncService.reconcilePoints (prev.getD 0)
      (AssemblyClient.matchTextWithTiming ttext (w :: ws) (sec.points.map (·.text)))
      sec.points).2 := by
    have : some (SyncService.reconcilePoints (prev.getD 0)
        (AssemblyClient.matchTextWithTiming ttext (w :: ws) (sec.points.map (·.text)))
        sec.points).2 = some e := he
    injection this with h
    exact h.symm
  have hlast : (SyncService.reconcilePoints (prev.getD 0)
      (AssemblyClient.matchTextWithTiming ttext (w :: ws) (sec.points.map (·.text)))
      sec.points).1.getLast? =
      some { sec.points[sec.points.length - 1] with
               startTime := some (SyncService.startVal (prev.getD 0)
                 (AssemblyClient.matchTextWithTiming ttext (w :: ws) (sec.points.map (·.text)))
                 (sec.points.length - 1))
               endTime := some (SyncService.endVal (prev.getD 0)
                 (AssemblyClient.matchTextWithTiming ttext (w :: ws) (sec.points.map (·.text)))
                 sec.points.length (sec.points.length - 1) +
                   SyncService.SECTION_END_BUFFER) } := by
    rw [List.getLast?_eq_getElem?, SyncService.reconcilePoints_fst_length]
    rw [hpts (sec.points.length - 1),
      List.getElem?_eq_getElem (show sec.points.length - 1 < sec.points.length by omega),
      Option.map_some']
    rw [if_pos rfl]
  have hmapped : ((SyncService.reconcilePoints (prev.getD 0)
      (AssemblyClient.matchTextWithTiming ttext (w :: ws) (sec.points.map (·.text)))
      sec.points).1.map SyncService.toPointWithTiming).getLast? =
      some (SyncService.toPointWithTiming
        { sec.points[sec.points.length - 1] with
            startTime := some (SyncService.startVal (prev.getD 0)
              (AssemblyClient.matchTextWithTiming ttext (w :: ws) (sec.points.map (·.text)))
              (sec.points.length - 1))
            endTime := some (SyncService.endVal (prev.getD 0)
              (AssemblyClient.matchTextWithTiming ttext (w :: ws) (sec.points.map (·.text)))
              sec.points.length (sec.points.length - 1) +
                SyncService.SECTION_END_BUFFER) }) := by
    rw [List.getLast?_map, hlast, Option.map_some']
  have hendval : (SyncService.toPointWithTiming
      { sec.points[sec.points.length - 1] with
          startTime := some (SyncService.startVal (prev.getD 0)
            (AssemblyClient.matchTextWithTiming ttext (w :: ws) (sec.points.map (·.text)))
            (sec.points.length - 1))
          endTime := some (SyncService.endVal (prev.getD 0)
            (AssemblyClient.matchTextWithTiming ttext (w :: ws) (sec.points.map (·.text)))
            sec.points.length (sec.points.length - 1) +
              SyncService.SECTION_END_BUFFER) }).endTime = round e := by
    rw [SyncService.toPointWithTiming]
    dsimp only
    rw [Option.getD_some, he', hsec]
  constructor
  · rw [nextPreviousSectionEndTime_seg, hmapped]
    dsimp only
    rw [hendval]
  · rw [nextPreviousSectionEndTime_direct, hmapped]
    dsimp only
    rw [hendval, round_intCast]


/-- Claim C2 (corrected): the value passed as `previousSectionEndTime` for
section N+1 is not exactly section N's `sectionEndTime`. In the per-section
segmentation flow it is `Math.round(last point end)` plus 0.5 ms (a
deliberate "small gap between sections"), and in the transcript-extraction
flow it is `Math.round(last point end)`; when `sectionEndTime` is integral
the first flow exceeds it by exactly 0.5 ms and only the second flow
reproduces it exactly. -/
theorem previousSectionEndTime_not_exact (vo : Option SyncService.VoiceOver)
    (fresh : SyncService.TranscriptData) (sec : SyncService.ProcessedSection)
    (prev : Option ℚ) (ttext : Str)
    (w : TextAlignmentService.TranscriptWord) (ws : List TextAlignmentService.TranscriptWord)
    (hne : sec.points ≠ [])
    (hinit : ∀ p ∈ sec.points, p.startTime = none ∧ p.endTime = none)
    (out : List SyncService.PointWithTiming × SyncService.ProcessedSection)
    (hout : SyncService.synchronizeVoiceOverWithPoints vo fresh sec prev
      (some ⟨ttext, some (w :: ws)⟩) = Except.ok out) (x : ℚ) :
    ∀ e : ℚ, out.2.sectionEndTime = some e →
      nextPreviousSectionEndTime_seg out.1 x = ((round e : ℤ) : ℚ) + 1 / 2 ∧
      nextPreviousSectionEndTime_direct out.1 x = ((round e : ℤ) : ℚ) ∧
      (∀ z : ℤ, e = (z : ℚ) →
        nextPreviousSectionEndTime_seg out.1 x ≠ e ∧
        nextPreviousSectionEndTime_direct out.1 x = e) := by
  intro e he
  obtain ⟨h1, h2⟩ := synchronize_updates vo fresh sec prev ttext w ws hne hinit out hout x e he
  refine ⟨h1, h2, ?_⟩
  rintro z rfl
  constructor
  · rw [h1, round_intCast]
    intro hcon
    have h0 : (1 : ℚ) / 2 = 0 := by linarith
    norm_num at h0
  · rw [h2, round_intCast]


/-- Counterexample to C2 as stated: a fully matched one-section run whose
`sectionEndTime` is 1100 ms hands the next section 1100.5 ms, not 1100 ms. -/
theorem previousSectionEndTime_gap_counterexample :
    ((SyncService.synchronizeVoiceOverWithPoints none ⟨[], none⟩
        ⟨"s1".toList, none, none, none, none,
          [⟨"aa".toList, [], [], [], none, none⟩, ⟨"bb".toList, [], [], [], none, none⟩]⟩
        none
        (some ⟨"aa bb".toList,
          some [⟨"aa".toList, 0, 300, 1⟩, ⟨"bb".toList, 300, 600, 1⟩]⟩)).toOption.map
      (fun out => (nextPreviousSectionEndTime_seg out.1 0, out.2.sectionEndTime))) =
      some ((1100 : ℚ) + 1 / 2, some (1100 : ℚ)) ∧
    (1100 : ℚ) + 1 / 2 ≠ (1100 : ℚ) := by
  have hsecend : ((SyncService.synchronizeVoiceOverWithPoints none ⟨[], none⟩
      ⟨"s1".toList, none, none, none, none,
        [⟨"aa".toList, [], [], [], none, none⟩, ⟨"bb".toList, [], [], [], none, none⟩]⟩
      none
      (some ⟨"aa bb".toList,
        some [⟨"aa".toList, 0, 300, 1⟩, ⟨"bb".toList, 300, 600, 1⟩]⟩)).toOption.map
      (fun out => out.2.sectionEndTime)) = some (some (1100 : ℚ)) := by
    rw [SyncService.synchronize_existing_eq]
    simp only [Except.toOption, Option.map_some']
    obtain ⟨hsec, -⟩ := SyncService.reconcilePoints_spec ((none : Option ℚ).getD 0)
      (AssemblyClient.matchTextWithTiming "aa bb".toList
        [⟨"aa".toList, 0, 300, 1⟩, ⟨"bb".toList, 300, 600, 1⟩]
        (([⟨"aa".toList, [], [], [], none, none⟩,
           ⟨"bb".toList, [], [], [], none, none⟩] : List SyncService.PointWithVideo).map (·.text)))
      [⟨"aa".toList, [], [], [], none, none⟩, ⟨"bb".toList, [], [], [], none, none⟩]
      (by decide) (by intro p hp; fin_cases hp <;> rfl)
    have hraw : AssemblyClient.matchTextWithTiming "aa bb".toList
        [⟨"aa".toList, 0, 300, 1⟩, ⟨"bb".toList, 300, 600, 1⟩]
        (([⟨"aa".toList, [], [], [], none, none⟩,
           ⟨"bb".toList, [], [], [], none, none⟩] : List SyncService.PointWithVideo).map (·.text)) =
        [⟨"aa".toList, 0, 300, 300⟩, ⟨"bb".toList, 300, 600, 300⟩] := by decide
    show some (some (SyncService.reconcilePoints _ _ _).2) = _
    rw [hsec, hraw]
    norm_num [SyncService.endVal, SyncService.startVal, SyncService.durVal,
      SyncService.zeroTiming, SyncService.SECTION_END_BUFFER]
  refine ⟨?_, by norm_num⟩
  have hsecend' : ((SyncService.synchronizeVoiceOverWithPoints none ⟨[], none⟩
      ⟨"s1".toList, none, none, none, none,
        [⟨"aa".toList, [], [], [], none, none⟩, ⟨"bb".toList, [], [], [], none, none⟩]⟩
      none
      (some ⟨"aa bb".toList,
        some [⟨"aa".toList, 0, 300, 1⟩, ⟨"bb".toList, 300, 600, 1⟩]⟩)).toOption.map
      (fun out => out.2.sectionEndTime)) = some (some (1100 : ℚ)) := hsecend
  rw [SyncService.synchronize_existing_eq] at hsecend' ⊢
  simp only [Except.toOption, Option.map_some'] at hsecend' ⊢
  injection hsecend' with hsecend'
  obtain ⟨h1, -⟩ := synchronize_updates none ⟨[], none⟩
    ⟨"s1".toList, none, none, none, none,
      [⟨"aa".toList, [], [], [], none, none⟩, ⟨"bb".toList, [], [], [], none, none⟩]⟩
    none "aa bb".toList ⟨"aa".toList, 0, 300, 1⟩ [⟨"bb".toList, 300, 600, 1⟩]
    (by decide) (by intro p hp; fin_cases hp <;> exact ⟨rfl, rfl⟩) _
    (SyncService.synchronize_existing_eq none ⟨[], none⟩
      ⟨"s1".toList, none, none, none, none,
        [⟨"aa".toList, [], [], [], none, none⟩, ⟨"bb".toList, [], [], [], none, none⟩]⟩
      none "aa bb".toList ⟨"aa".toList, 0, 300, 1⟩ [⟨"bb".toList, 300, 600, 1⟩])
    0 (1100 : ℚ) hsecend'
  rw [Option.some_inj, Prod.mk.injEq]
  refine ⟨?_, hsecend'⟩
  rw [h1]
  norm_num [round_eq]


/-- Witness for the corrected C2 at the same concrete run. -/
theorem previousSectionEndTime_not_exact_witness :
    nextPreviousSectionEndTime_seg
        ((SyncService.reconcilePoints ((none : Option ℚ).getD 0)
          (AssemblyClient.matchTextWithTiming "aa bb".toList
            [⟨"aa".toList, 0, 300, 1⟩, ⟨"bb".toList, 300, 600, 1⟩]
            (([⟨"aa".toList, [], [], [], none, none⟩,
               ⟨"bb".toList, [], [], [], none, none⟩] :
                List SyncService.PointWithVideo).map (·.text)))
          [⟨"aa".toList, [], [], [], none, none⟩,
           ⟨"bb".toList, [], [], [], none, none⟩]).1.map
          SyncService.toPointWithTiming) 0 ≠ (1100 : ℚ) ∧
      nextPreviousSectionEndTime_direct
        ((SyncService.reconcilePoints ((none : Option ℚ).getD 0)
          (AssemblyClient.matchTextWithTiming "aa bb".toList
            [⟨"aa".toList, 0, 300, 1⟩, ⟨"bb".toList, 300, 600, 1⟩]
            (([⟨"aa".toList, [], [], [], none, none⟩,
               ⟨"bb".toList, [], [], [], none, none⟩] :
                List SyncService.PointWithVideo).map (·.text)))
          [⟨"aa".toList, [], [], [], none, none⟩,
           ⟨"bb".toList, [], [], [], none, none⟩]).1.map
          SyncService.toPointWithTiming) 0 = (1100 : ℚ) :=
  (previousSectionEndTime_not_exact none ⟨[], none⟩
    ⟨"s1".toList, none, none, none, none,
      [⟨"aa".toList, [], [], [], none, none⟩, ⟨"bb".toList, [], [], [], none, none⟩]⟩
    none "aa bb".toList ⟨"aa".toList, 0, 300, 1⟩ [⟨"bb".toList, 300, 600, 1⟩]
    (by decide) (by intro p hp; fin_cases hp <;> exact ⟨rfl, rfl⟩) _
    (SyncService.synchronize_existing_eq none ⟨[], none⟩
      ⟨"s1".toList, none, none, none, none,
        [⟨"aa".toList, [], [], [], none, none⟩, ⟨"bb".toList, [], [], [], none, none⟩]⟩
      none "aa bb".toList ⟨"aa".toList, 0, 300, 1⟩ [⟨"bb".toList, 300, 600, 1⟩])
    0 (1100 : ℚ)
    (by
      show some (SyncService.reconcilePoints _ _ _).2 = _
      obtain ⟨hsec, -⟩ := SyncService.reconcilePoints_spec ((none : Option ℚ).getD 0)
        (AssemblyClient.matchTextWithTiming "aa bb".toList
          [⟨"aa".toList, 0, 300, 1⟩, ⟨"bb".toList, 300, 600, 1⟩]
          (([⟨"aa".toList, [], [], [], none, none⟩,
             ⟨"bb".toList, [], [], [], none, none⟩] :
              List SyncService.PointWithVideo).map (·.text)))
        [⟨"aa".toList, [], [], [], none, none⟩, ⟨"bb".toList, [], [], [], none, none⟩]
        (by decide) (by intro p hp; fin_cases hp <;> rfl)
      rw [hsec,
        show AssemblyClient.matchTextWithTiming "aa bb".toList
          [⟨"aa".toList, 0, 300, 1⟩, ⟨"bb".toList, 300, 600, 1⟩]
          (([⟨"aa".toList, [], [], [], none, none⟩,
             ⟨"bb".toList, [], [], [], none, none⟩] :
              List SyncService.PointWithVideo).map (·.text)) =
          [⟨"aa".toList, 0, 300, 300⟩, ⟨"bb".toList, 300, 600, 300⟩] from by decide]
      norm_num [SyncService.endVal, SyncService.startVal, SyncService.durVal,
        SyncService.zeroTiming, SyncService.SECTION_END_BUFFER])).2.2 1100 (by norm_num)

end ScriptService

/-- A script section (`script-types.ts`, `Section`): id, text, and the
extracted points. -/
structure Section where
  id : Str
  text : Str
  points : List Str
deriving DecidableEq, Repr

namespace TextProcessing

/-- `split(/\s+/)` of JavaScript: pieces between maximal whitespace runs,
with empty leading/trailing pieces when the string starts/ends with
whitespace (collapsing runs to single spaces and splitting on spaces yields
exactly this). -/
def jsSplitWs (s : Str) : List Str := (JsString.collapseWs s).splitOn ' '

/-- Sentence splitter `split(/(?<=[.?!])\s+/)`: a maximal whitespace run
preceded by `.`, `?` or `!` separates sentences. `acc` holds the reversed
current piece, whose head is the previously consumed character (the
lookbehind); the fuel is at least the string length plus one, and every step
consumes at least one character. -/
def splitSentencesAux : ℕ → Str → Str → List Str
  | 0, acc, _ => [acc.reverse]
  | _ + 1, acc, [] => [acc.reverse]
  | fuel + 1, acc, c :: rest =>
      if JsString.isWsChar c &&
          (match acc with
           | p :: _ => p == '.' || p == '?' || p == '!'
           | [] => false) then
        acc.reverse :: splitSentencesAux fuel [] (rest.dropWhile JsString.isWsChar)
      else splitSentencesAux fuel (c :: acc) rest

def splitSentences (s : Str) : List Str := splitSentencesAux (s.length + 1) [] s

/-- The word-character class `\w` of JavaScript regexes. -/
def isWordChar (c : Char) : Bool :=
  (97 ≤ c.toNat ∧ c.toNat ≤ 122) ∨ (65 ≤ c.toNat ∧ c.toNat ≤ 90) ∨
    (48 ≤ c.toNat ∧ c.toNat ≤ 57) ∨ c.toNat = 95

/-- The alternatives of `/\b(that|which|where|when|while)\b/i`. -/
def conjWords : List Str :=
  ["that".toList, "which".toList, "where".toList, "when".toList, "while".toList]

/-- Whether one of the conjunction alternatives matches (case-insensitively,
with a trailing word boundary) at the start of the suffix `s`. -/
def conjMatchesHere (s : Str) : Bool :=
  conjWords.any (fun w =>
    JsString.toLowerStr (s.take w.length) == w &&
      (match s.drop w.length with
       | [] => true
       | d :: _ => ! isWordChar d))

/-- Scan for the first conjunction match; `prev` is the previously consumed
character (for the leading word boundary). -/
def findConjAux : Option Char → ℕ → Str → Option ℕ
  | _, _, [] => none
  | prev, i, c :: rest =>
      if (match prev with
          | none => true
          | some d => ! isWordChar d) && conjMatchesHere (c :: rest) then some i
      else findConjAux (some c) (i + 1) rest

/-- `conjRegex.exec(sentence)?.index` of `splitSection`. -/
def findConjIndex (s : Str) : Option ℕ := findConjAux none 0 s

/-- `splitByLength` (split.ts): break a sentence at the middle word. -/
def splitByLength (sentence : Str) : Str × Str :=
  let words := jsSplitWs sentence
  let mid := words.length / 2
  (List.intercalate [' '] (words.take mid), List.intercalate [' '] (words.drop mid))

/-- One sentence of `splitSection`: the four splitting rules in order. -/
def processSentence (sentence : Str) : List Str :=
  let commaCount := sentence.count ','
  let r1 : Option (List Str) :=
    if commaCount ≥ 2 then
      match ((sentence.splitOn ',').take 3).map JsString.trimStr with
      | [a, b, c] =>
          if (jsSplitWs b).length > 6 ∧ (jsSplitWs c).length > 6 then
            some [a ++ ", ".toList ++ b, c]
          else none
      | _ => none
    else none
  match r1 with
  | some segs => segs
  | none =>
    let r2 : Option (List Str) :=
      match JsString.indexOfFrom sentence [','] 0 with
      | some firstCommaIdx =>
          let before := JsString.trimStr (sentence.take firstCommaIdx)
          let after := JsString.trimStr (sentence.drop (firstCommaIdx + 1))
          if (jsSplitWs before).length > 6 ∧ (jsSplitWs after).length > 6 then
            some [before, after]
          else none
      | none => none
    match r2 with
    | some segs => segs
    | none =>
      let r3 : Option (List Str) :=
        match findConjIndex sentence with
        | some idx =>
            if (jsSplitWs sentence).length > 12 ∧ idx > 6 then
              let before := JsString.trimStr (sentence.take idx)
              let after := JsString.trimStr (sentence.drop idx)
              if (jsSplitWs before).length ≥ 6 ∧ (jsSplitWs after).length ≥ 6 then
                some [before, after]
              else none
            else none
        | none => none
      match r3 with
      | some segs => segs
      | none =>
          if (jsSplitWs sentence).length > 16 then
            let halves := splitByLength sentence
            if halves.2.isEmpty then [halves.1] else [halves.1, halves.2]
          else [sentence]

/-- `splitSection` (split.ts, `src/utils/text-processing`): split a section
text into sentences and each sentence into points by the four rules. -/
def splitSection (text : Str) : List Str :=
  (((splitSentences text).map JsString.trimStr).filter (fun s => ¬ s.isEmpty)).flatMap
    processSentence

end TextProcessing

namespace SectionParser

/-- Paragraph splitter `split(/\n\s*\n+/)`: a match starts at a newline whose
maximal whitespace run contains a further newline, and extends greedily
through the last newline of that run. Fuel is at least the string length
plus one; every step consumes at least one character. -/
def splitParagraphsAux : ℕ → Str → Str → List Str
  | 0, acc, _ => [acc.reverse]
  | _ + 1, acc, [] => [acc.reverse]
  | fuel + 1, acc, c :: rest =>
      let run := rest.takeWhile JsString.isWsChar
      if c = '\n' ∧ '\n' ∈ run then
        let keep := (run.reverse.dropWhile (fun d => ¬ d = '\n')).reverse
        acc.reverse :: splitParagraphsAux fuel [] (rest.drop keep.length)
      else splitParagraphsAux fuel (c :: acc) rest

def splitParagraphs (s : Str) : List Str := splitParagraphsAux (s.length + 1) [] s

/-- `SectionParser.parseScriptIntoSections`: split on blank lines, trim,
drop empties, and name the sections `section1`, `section2`, ... -/
def parseScriptIntoSections (script : Str) : List Section :=
  let sectionTexts :=
    (((splitParagraphs script).map JsString.trimStr).filter (fun s => ¬ s.isEmpty))
  sectionTexts.enum.map (fun p =>
    ⟨"section".toList ++ (Nat.repr (p.1 + 1)).toList, p.2, []⟩)

end SectionParser

namespace PointExtractor

/-- `PointExtractor.extractPointsFromSection`. -/
def extractPointsFromSection (s : Section) : Section :=
  { s with points := TextProcessing.splitSection s.text }

/-- `PointExtractor.extractPointsFromSections`. -/
def extractPointsFromSections (sections : List Section) : List Section :=
  sections.map extractPointsFromSection

end PointExtractor

-- sanity: the single-sentence script parses to one section with one point
example :
    (PointExtractor.extractPointsFromSections
      (SectionParser.parseScriptIntoSections "Hello world amazing wonderful".toList)).map
        (·.points) = [["Hello world amazing wonderful".toList]] := by decide

namespace TranscriptSegmenter

/-- An exact (unnormalized) fraction used for the similarity scores of
`calculateSimilarity`. Every denominator produced below is positive (the
word-count denominators are at least 1 because `split` always yields at
least one piece), so comparison by cross-multiplication agrees with the
rational value everywhere the code evaluates it. -/
structure Frac where
  num : ℤ
  den : ℤ
deriving DecidableEq, Repr

/-- The ratio `a / b`. -/
def Frac.ratio (a b : ℕ) : Frac := ⟨a, b⟩

def Frac.add (x y : Frac) : Frac := ⟨x.num * y.den + y.num * x.den, x.den * y.den⟩

def Frac.mul (x y : Frac) : Frac := ⟨x.num * y.num, x.den * y.den⟩

/-- `x < y`, by cross-multiplication (valid for positive denominators). -/
def Frac.blt (x y : Frac) : Bool := x.num * y.den < y.num * x.den

/-- `Math.min` on scores. -/
def Frac.minF (x y : Frac) : Frac := if Frac.blt y x then y else x

/-- The rational value of a fraction (for stating properties). -/
def Frac.val (x : Frac) : ℚ := (x.num : ℚ) / (x.den : ℚ)

/-- The punctuation class of the segmenter's own `normalizeText`
(regex `[.,\/#!$%\^&\*;:{}=\-_`~()]`). -/
def isPunctSeg (c : Char) : Bool :=
  c.toNat ∈ ([46, 44, 47, 35, 33, 36, 37, 94, 38, 42, 59, 58, 123, 125, 61, 45, 95, 96,
    126, 40, 41] : List ℕ)

/-- `TranscriptSegmenter.normalizeText`: lowercase, strip punctuation,
collapse whitespace, trim (no number conversion here). -/
def normalizeText (text : Str) : Str :=
  JsString.trimStr (JsString.collapseWs
    ((JsString.toLowerStr text).filter (fun c => ¬ isPunctSeg c)))

/-- `generateNGrams`: all contiguous `n`-word windows joined by spaces. -/
def generateNGrams (words : List Str) (n : ℕ) : List Str :=
  if words.length < n then []
  else (List.range (words.length - n + 1)).map
    (fun i => List.intercalate [' '] ((words.drop i).take n))

/-- `TranscriptSegmenter.calculateSimilarity`: weighted blend of word-count
length ratio (0.2), bag-of-words overlap of words longer than 2 characters
(0.4), and size-weighted n-gram overlap for n-gram sizes 2..min(4, half the
shorter word count) (0.4). -/
def calculateSimilarity (str1 str2 : Str) : Frac :=
  if str1.isEmpty ∨ str2.isEmpty then ⟨0, 1⟩
  else if str1 = str2 then ⟨1, 1⟩
  else
    let words1 := str1.splitOn ' '
    let words2 := str2.splitOn ' '
    let lenRatio := Frac.ratio (min words1.length words2.length)
      (max words1.length words2.length)
    let wordSet1 := words1.dedup
    let wordSet2 := words2.dedup
    let matchingWords :=
      (wordSet1.filter (fun word => word ∈ wordSet2 ∧ word.length > 2)).length
    let wordSimilarity := Frac.ratio matchingWords (max wordSet1.length wordSet2.length)
    let maxNGramSize := min 4 (min (words1.length / 2) (words2.length / 2))
    let sequenceMatches :=
      (List.range' 2 (maxNGramSize - 1)).foldl (fun acc nGramSize =>
        acc + nGramSize *
          ((generateNGrams words1 nGramSize).filter
            (fun nGram => nGram ∈ generateNGrams words2 nGramSize)).length) 0
    let maxPossibleMatches := max words1.length words2.length * 2
    let sequenceSimilarity :=
      Frac.minF (Frac.ratio sequenceMatches maxPossibleMatches) ⟨1, 1⟩
    Frac.add (Frac.add (Frac.mul lenRatio ⟨2, 10⟩) (Frac.mul wordSimilarity ⟨4, 10⟩))
      (Frac.mul sequenceSimilarity ⟨4, 10⟩)

/-- Inner `while` of `findBestMatch`: walk the non-overlapping occurrences
of one significant word, score a context window around each, and track the
best index; breaks out as soon as an update exceeds 0.7. The searched word
is non-empty on every reachable path, so each iteration advances the search
position and fuel `transcript.length + 1` never runs out. -/
def fuzzyInner (normalizedPoint normalizedTranscript word : Str) :
    ℕ → ℕ → Frac → ℤ → Frac × ℤ
  | 0, _, bestSim, bestIdx => (bestSim, bestIdx)
  | fuel + 1, searchPos, bestSim, bestIdx =>
      match JsString.indexOfFrom normalizedTranscript word searchPos with
      | none => (bestSim, bestIdx)
      | some wordIndex =>
          let windowSize := min (normalizedPoint.length * 2) 200
          let contextStart := wordIndex - 20
          let contextEnd := min (wordIndex + windowSize) normalizedTranscript.length
          let context := (normalizedTranscript.drop contextStart).take
            (contextEnd - contextStart)
          let similarity := calculateSimilarity normalizedPoint context
          if Frac.blt bestSim similarity ∧ Frac.blt ⟨4, 10⟩ similarity then
            if Frac.blt ⟨7, 10⟩ similarity then (similarity, (contextStart : ℤ))
            else fuzzyInner normalizedPoint normalizedTranscript word fuel
              (wordIndex + word.length) similarity (contextStart : ℤ)
          else fuzzyInner normalizedPoint normalizedTranscript word fuel
            (wordIndex + word.length) bestSim bestIdx

/-- Outer loop of `findBestMatch` over the significant words; stops once the
best similarity exceeds 0.7. -/
def fuzzyOuter (normalizedPoint normalizedTranscript : Str) (startPosition : ℕ) :
    List Str → Frac → ℤ → Frac × ℤ
  | [], bestSim, bestIdx => (bestSim, bestIdx)
  | word :: rest, bestSim, bestIdx =>
      let r := fuzzyInner normalizedPoint normalizedTranscript word
        (normalizedTranscript.length + 1) startPosition bestSim bestIdx
      if Frac.blt ⟨7, 10⟩ r.1 then r
      else fuzzyOuter normalizedPoint normalizedTranscript startPosition rest r.1 r.2

/-- `TranscriptSegmenter.findBestMatch`: exact substring search, then the
two-word-prefix match for short phrases, then fuzzy significant-word
scoring; `-1` when nothing scores above 0.4. -/
def findBestMatch (point transcript : Str) (startPosition : ℕ) : ℤ :=
  let normalizedPoint := normalizeText point
  let normalizedTranscript := normalizeText transcript
  match JsString.indexOfFrom normalizedTranscript normalizedPoint startPosition with
  | some exactMatchIndex => (exactMatchIndex : ℤ)
  | none =>
      let words := normalizedPoint.splitOn ' '
      let short : Option ℕ :=
        if words.length ≤ 3 ∧ 2 ≤ words.length then
          JsString.indexOfFrom normalizedTranscript
            (List.intercalate [' '] (words.take 2)) startPosition
        else none
      match short with
      | some shortPhraseIndex => (shortPhraseIndex : ℤ)
      | none =>
          let significantWords := words.filter (fun word => word.length > 3)
          let wordsToUse := if significantWords.length > 0 then significantWords
            else words.take 3
          (fuzzyOuter normalizedPoint normalizedTranscript startPosition
            wordsToUse ⟨0, 1⟩ (-1)).2

end TranscriptSegmenter

-- sanity: the unmatched long point yields NOT_FOUND
example :
    TranscriptSegmenter.findBestMatch "Hello world amazing wonderful".toList
      "qqq zzz".toList 0 = -1 := by decide

namespace TranscriptSegmenter

/-- Point loop of `segmentSectionTranscript`, threading the transcript
position. Empty points are skipped (`if (!originalPoint) continue`); every
other point is pushed whether or not `findBestMatch` finds it; a found point
advances the position to the computed end of its transcript slice. -/
def segmentSectionLoop (transcript : Str) (sec : Section) : ℕ → List Str → List Str
  | _, [] => []
  | transcriptPosition, originalPoint :: rest =>
      if originalPoint.isEmpty then
        segmentSectionLoop transcript sec transcriptPosition rest
      else
        let pointStartIndex := findBestMatch originalPoint transcript transcriptPosition
        if pointStartIndex ≠ -1 then
          let pointIndex := sec.points.indexOf originalPoint
          let pointEndIndex : ℕ :=
            if pointIndex = sec.points.length - 1 then transcript.length
            else
              match sec.points[pointIndex + 1]? with
              | some nextPoint =>
                  if nextPoint.isEmpty then transcript.length
                  else
                    let nextPointStartIndex := findBestMatch nextPoint transcript
                      (pointStartIndex.toNat + originalPoint.length)
                    if nextPointStartIndex ≠ -1 then nextPointStartIndex.toNat
                    else transcript.length
              | none => transcript.length
          originalPoint :: segmentSectionLoop transcript sec pointEndIndex rest
        else originalPoint :: segmentSectionLoop transcript sec transcriptPosition rest

/-- `TranscriptSegmenter.segmentSectionTranscript`: re-derive the section's
points from its transcript, preserving unmatched points. -/
def segmentSectionTranscript (transcript : Str)
    (words : List TextAlignmentService.TranscriptWord) (sec : Section) : Section :=
  ⟨sec.id, sec.text, segmentSectionLoop transcript sec 0 sec.points⟩

/-- Point loop of `segmentTranscript` for one section: identical position
threading, but an unmatched point is NOT pushed (the source has no else
branch). The last point of a section looks at the next section's first point
to bound its transcript slice. -/
def segTransPoints (transcript : Str) (allSections : List Section) (sectionIdx : ℕ)
    (s : Section) : ℕ → List Str → List Str × ℕ
  | pos, [] => ([], pos)
  | pos, originalPoint :: rest =>
      if originalPoint.isEmpty then segTransPoints transcript allSections sectionIdx s pos rest
      else
        let pointStartIndex := findBestMatch originalPoint transcript pos
        if pointStartIndex ≠ -1 then
          let pointIndex := s.points.indexOf originalPoint
          let pointEndIndex : ℕ :=
            if pointIndex = s.points.length - 1 then
              match allSections[sectionIdx + 1]? with
              | some nextSection =>
                  match nextSection.points with
                  | nextSectionFirstPoint :: _ =>
                      if nextSectionFirstPoint.isEmpty then transcript.length
                      else
                        let nextSectionStartIndex := findBestMatch nextSectionFirstPoint
                          transcript (pointStartIndex.toNat + originalPoint.length)
                        if nextSectionStartIndex ≠ -1 then nextSectionStartIndex.toNat
                        else transcript.length
                  | [] => transcript.length
              | none => transcript.length
            else
              match s.points[pointIndex + 1]? with
              | some nextPoint =>
                  if nextPoint.isEmpty then transcript.length
                  else
                    let nextPointStartIndex := findBestMatch nextPoint transcript
                      (pointStartIndex.toNat + originalPoint.length)
                    if nextPointStartIndex ≠ -1 then nextPointStartIndex.toNat
                    else transcript.length
              | none => transcript.length
          let r := segTransPoints transcript allSections sectionIdx s pointEndIndex rest
          (originalPoint :: r.1, r.2)
        else segTransPoints transcript allSections sectionIdx s pos rest

/-- Section loop of `segmentTranscript`: sections whose re-derived points
list is empty are dropped. -/
def segTransSections (transcript : Str) (allSections : List Section) :
    List Section → ℕ → ℕ → List Section
  | [], _, _ => []
  | s :: rest, sectionIdx, pos =>
      let r := segTransPoints transcript allSections sectionIdx s pos s.points
      if r.1.length > 0 then
        (⟨s.id, s.text, r.1⟩ : Section) ::
          segTransSections transcript allSections rest (sectionIdx + 1) r.2
      else segTransSections transcript allSections rest (sectionIdx + 1) r.2

/-- `TranscriptSegmenter.segmentTranscript`: parse the original script,
extract its points, and re-locate each point in the transcript. -/
def segmentTranscript (transcript : Str)
    (words : List TextAlignmentService.TranscriptWord) (originalScript : Str) :
    List Section :=
  let originalSectionsWithPoints :=
    PointExtractor.extractPointsFromSections
      (SectionParser.parseScriptIntoSections originalScript)
  segTransSections transcript originalSectionsWithPoints originalSectionsWithPoints 0 0

lemma segmentSectionLoop_eq_filter (transcript : Str) (sec : Section)
    (pos : ℕ) (pts : List Str) :
    segmentSectionLoop transcript sec pos pts = pts.filter (fun p => ¬ p.isEmpty) := by
  induction pts generalizing pos with
  | nil => rfl
  | cons p rest ih =>
    rw [segmentSectionLoop]
    by_cases hp : p.isEmpty
    · rw [if_pos hp, ih pos, List.filter_cons]
      simp [hp]
    · rw [if_neg hp]
      by_cases hm : findBestMatch p transcript pos ≠ -1
      · rw [if_pos hm]
        dsimp only
        rw [ih, List.filter_cons]
        simp [hp]
      · rw [if_neg hm, ih pos, List.filter_cons]
        simp [hp]

/-- Claim C5 (amended): `segmentSectionTranscript` preserves every non-empty
point unchanged and in order — in particular every point for which
`findBestMatch` returned NOT_FOUND (-1). `segmentTranscript`, however, drops
unmatched points (see `segmentTranscript_drops_unmatched`). -/
theorem segmentSectionTranscript_preserves_points (transcript : Str)
    (words : List TextAlignmentService.TranscriptWord) (sec : Section) :
    (segmentSectionTranscript transcript words sec).points =
      sec.points.filter (fun p => ¬ p.isEmpty) :=
  segmentSectionLoop_eq_filter transcript sec 0 sec.points

/-- Counterexample to C5 as stated: for the one-section one-point script
"Hello world amazing wonderful" and a transcript containing none of its
words, `findBestMatch` returns -1, yet `segmentTranscript` returns no
sections at all — the unmatched point is silently dropped rather than
preserved. -/
theorem segmentTranscript_drops_unmatched :
    TranscriptSegmenter.findBestMatch "Hello world amazing wonderful".toList
        "qqq zzz".toList 0 = -1 ∧
      (PointExtractor.extractPointsFromSections
        (SectionParser.parseScriptIntoSections
          "Hello world amazing wonderful".toList)).map (·.points) =
        [["Hello world amazing wonderful".toList]] ∧
      TranscriptSegmenter.segmentTranscript "qqq zzz".toList []
        "Hello world amazing wonderful".toList = [] := by
  refine ⟨by decide, by decide, by decide⟩

end TranscriptSegmenter

-- ### Idempotence of the text normalizer (claim C7) ###

namespace TextNormalizer

/-- The maximal non-whitespace runs of a string; `acc` holds the reversed
current run, exactly as in `mapWordsAcc`. -/
def wordsAcc : Str → Str → List Str
  | acc, [] => if acc.isEmpty then [] else [acc.reverse]
  | acc, c :: rest =>
      if JsString.isWsChar c then
        (if acc.isEmpty then wordsAcc [] rest else acc.reverse :: wordsAcc [] rest)
      else wordsAcc (c :: acc) rest

def wordsOf (s : Str) : List Str := wordsAcc [] s

/-- Join words with single spaces (the canonical collapsed-and-trimmed form). -/
def joinWords : List Str → Str
  | [] => []
  | [w] => w
  | w :: x :: l => w ++ ' ' :: joinWords (x :: l)

theorem lowerChar_idem (c : Char) : JsString.lowerChar (JsString.lowerChar c) = JsString.lowerChar c := by
  have hnot : ¬ (65 ≤ (JsString.lowerChar c).toNat ∧ (JsString.lowerChar c).toNat ≤ 90) := by
    by_cases h : 65 ≤ c.toNat ∧ c.toNat ≤ 90
    · have hlt : c.toNat + 32 < 55296 := by omega
      have hv : (c.toNat + 32).isValidChar := Or.inl hlt
      have ht : (Char.ofNat (c.toNat + 32)).toNat = c.toNat + 32 := by
        simp only [Char.ofNat, hv, dite_true, dif_pos]
        rfl
      rw [JsString.lowerChar, if_pos h, ht]
      omega
    · rw [JsString.lowerChar, if_neg h]
      omega
  conv_lhs => rw [JsString.lowerChar]
  rw [if_neg hnot]

/-- `List.lookup` hits are members of the association list. -/
theorem lookup_mem {α β : Type} [BEq α] [LawfulBEq α] (l : List (α × β)) (a : α) (b : β)
    (h : l.lookup a = some b) : (a, b) ∈ l := by
  induction l with
  | nil => simp [List.lookup] at h
  | cons p t ih =>
    rw [List.lookup] at h
    by_cases he : a == p.1
    · simp [he] at h
      have ha : a = p.1 := eq_of_beq he
      cases p
      simp_all
    · simp [he] at h
      exact List.mem_cons_of_mem _ (ih h)

/-- No dictionary value is itself a dictionary key. -/
theorem numberWords_vals_fixed : ∀ p ∈ numberWords, numberWords.lookup p.2 = none := by decide

/-- Dictionary values are ASCII-lowercase-stable. -/
theorem numberWords_vals_lower :
    ∀ p ∈ numberWords, ∀ c ∈ p.2, JsString.lowerChar c = c := by decide

/-- Dictionary values contain no punctuation. -/
theorem numberWords_vals_nopunct :
    ∀ p ∈ numberWords, ∀ c ∈ p.2, isPunct c = false := by decide

/-- Dictionary values are non-empty whitespace-free words. -/
theorem numberWords_vals_word :
    ∀ p ∈ numberWords, p.2 ≠ [] ∧ ∀ c ∈ p.2, JsString.isWsChar c = false := by decide

theorem convertWord_nil : convertWord [] = [] := by decide

theorem convertWord_idem (w : Str) : convertWord (convertWord w) = convertWord w := by
  rcases h : numberWords.lookup w with _ | v
  · simp [convertWord, h]
  · have hv : numberWords.lookup v = none := numberWords_vals_fixed (w, v) (lookup_mem _ _ _ h)
    simp [convertWord, h, hv]

theorem convertWord_word (w : Str) (hne : w ≠ []) (hws : ∀ c ∈ w, JsString.isWsChar c = false) :
    convertWord w ≠ [] ∧ ∀ c ∈ convertWord w, JsString.isWsChar c = false := by
  rcases h : numberWords.lookup w with _ | v
  · simp only [convertWord, h, Option.getD_none]
    exact ⟨hne, hws⟩
  · simp only [convertWord, h, Option.getD_some]
    exact numberWords_vals_word (w, v) (lookup_mem _ _ _ h)

theorem convertWord_lower (w : Str) (hl : ∀ c ∈ w, JsString.lowerChar c = c) :
    ∀ c ∈ convertWord w, JsString.lowerChar c = c := by
  rcases h : numberWords.lookup w with _ | v
  · simpa only [convertWord, h, Option.getD_none] using hl
  · simp only [convertWord, h, Option.getD_some]
    exact numberWords_vals_lower (w, v) (lookup_mem _ _ _ h)

theorem convertWord_nopunct (w : Str) (hp : ∀ c ∈ w, isPunct c = false) :
    ∀ c ∈ convertWord w, isPunct c = false := by
  rcases h : numberWords.lookup w with _ | v
  · simpa only [convertWord, h, Option.getD_none] using hp
  · simp only [convertWord, h, Option.getD_some]
    exact numberWords_vals_nopunct (w, v) (lookup_mem _ _ _ h)

/-- A non-empty all-non-whitespace string is one single word (with the pending
run `acc` prepended). -/
theorem wordsAcc_nonws (w : Str) (hne : w ≠ []) (hws : ∀ c ∈ w, JsString.isWsChar c = false) :
    ∀ acc : Str, wordsAcc acc w = [acc.reverse ++ w] := by
  induction w with
  | nil => exact absurd rfl hne
  | cons c rest ih =>
    intro acc
    have hc : JsString.isWsChar c = false := hws c (List.mem_cons_self c rest)
    rw [wordsAcc, hc]
    simp only [Bool.false_eq_true, if_false]
    cases rest with
    | nil =>
      rw [wordsAcc]
      simp
    | cons d r =>
      rw [ih (by simp) (fun x hx => hws x (List.mem_cons_of_mem c hx))]
      simp

/-- Scanning a whitespace-free chunk just extends the pending run. -/
theorem wordsAcc_append (w : Str) (hws : ∀ c ∈ w, JsString.isWsChar c = false) (t : Str) :
    ∀ acc : Str, wordsAcc acc (w ++ t) = wordsAcc (w.reverse ++ acc) t := by
  induction w with
  | nil => intro acc; simp
  | cons c rest ih =>
    intro acc
    have hc : JsString.isWsChar c = false := hws c (List.mem_cons_self c rest)
    rw [List.cons_append, wordsAcc, hc]
    simp only [Bool.false_eq_true, if_false]
    rw [ih (fun x hx => hws x (List.mem_cons_of_mem c hx))]
    simp

/-- Every word produced by `wordsAcc` is non-empty and whitespace-free. -/
theorem wordsAcc_words (s : Str) :
    ∀ acc : Str, (∀ c ∈ acc, JsString.isWsChar c = false) →
      ∀ w ∈ wordsAcc acc s, w ≠ [] ∧ ∀ c ∈ w, JsString.isWsChar c = false := by
  induction s with
  | nil =>
    intro acc hacc w hw
    rw [wordsAcc] at hw
    by_cases ha : acc.isEmpty
    · simp [ha] at hw
    · rw [if_neg ha] at hw
      rw [List.mem_singleton] at hw
      subst hw
      refine ⟨?_, fun c hc => hacc c (List.mem_reverse.mp hc)⟩
      simp only [List.isEmpty_iff] at ha
      simpa using ha
  | cons c rest ih =>
    intro acc hacc w hw
    rw [wordsAcc] at hw
    by_cases hcw : JsString.isWsChar c
    · rw [if_pos hcw] at hw
      by_cases ha : acc.isEmpty
      · rw [if_pos ha] at hw
        exact ih [] (by simp) w hw
      · rw [if_neg ha] at hw
        rcases List.mem_cons.mp hw with h | h
        · subst h
          refine ⟨?_, fun x hx => hacc x (List.mem_reverse.mp hx)⟩
          simp only [List.isEmpty_iff] at ha
          simpa using ha
        · exact ih [] (by simp) w h
    · rw [if_neg hcw] at hw
      refine ih (c :: acc) ?_ w hw
      intro x hx
      rcases List.mem_cons.mp hx with h | h
      · subst h
        simpa using hcw
      · exact hacc x h

/-- Characters of the words come from the pending run or the string. -/
theorem wordsAcc_chars (s : Str) :
    ∀ acc : Str, ∀ w ∈ wordsAcc acc s, ∀ c ∈ w, c ∈ acc ∨ c ∈ s := by
  induction s with
  | nil =>
    intro acc w hw c hc
    rw [wordsAcc] at hw
    by_cases ha : acc.isEmpty
    · simp [ha] at hw
    · rw [if_neg ha, List.mem_singleton] at hw
      subst hw
      exact Or.inl (List.mem_reverse.mp hc)
  | cons d rest ih =>
    intro acc w hw c hc
    rw [wordsAcc] at hw
    by_cases hdw : JsString.isWsChar d
    · rw [if_pos hdw] at hw
      by_cases ha : acc.isEmpty
      · rw [if_pos ha] at hw
        rcases ih [] w hw c hc with h | h
        · simp at h
        · exact Or.inr (List.mem_cons_of_mem d h)
      · rw [if_neg ha] at hw
        rcases List.mem_cons.mp hw with h | h
        · subst h
          exact Or.inl (List.mem_reverse.mp hc)
        · rcases ih [] w h c hc with h2 | h2
          · simp at h2
          · exact Or.inr (List.mem_cons_of_mem d h2)
    · rw [if_neg hdw] at hw
      rcases ih (d :: acc) w hw c hc with h | h
      · rcases List.mem_cons.mp h with h2 | h2
        · exact Or.inr (List.mem_cons.mpr (Or.inl h2))
        · exact Or.inl h2
      · exact Or.inr (List.mem_cons_of_mem d h)

/-- `wordsOf` inverts `joinWords` on lists of non-empty whitespace-free words. -/
theorem wordsOf_joinWords (l : List Str)
    (hl : ∀ w ∈ l, w ≠ [] ∧ ∀ c ∈ w, JsString.isWsChar c = false) :
    wordsOf (joinWords l) = l := by
  induction l with
  | nil => rfl
  | cons w t ih =>
    cases t with
    | nil =>
      obtain ⟨hne, hws⟩ := hl w (List.mem_cons_self w [])
      show wordsAcc [] (joinWords [w]) = [w]
      rw [joinWords, wordsAcc_nonws w hne hws []]
      simp
    | cons x r =>
      obtain ⟨hne, hws⟩ := hl w (List.mem_cons_self w (x :: r))
      show wordsAcc [] (joinWords (w :: x :: r)) = w :: x :: r
      rw [joinWords, wordsAcc_append w hws _ [], List.append_nil, wordsAcc]
      have hsp : JsString.isWsChar ' ' = true := by decide
      rw [if_pos hsp, if_neg (by simpa [List.isEmpty_iff] using hne)]
      rw [List.reverse_reverse]
      have ht := ih (fun v hv => hl v (List.mem_cons_of_mem w hv))
      rw [wordsOf] at ht
      rw [ht]

/-- Mapping `f` over the words of `s` maps `f` over `wordsOf s`, provided `f`
sends words to words. -/
theorem wordsOf_mapWordsAcc (f : Str → Str)
    (hf : ∀ w, w ≠ [] → (∀ c ∈ w, JsString.isWsChar c = false) →
      f w ≠ [] ∧ ∀ c ∈ f w, JsString.isWsChar c = false)
    (hfe : f [] = []) (s : Str) :
    ∀ acc : Str, (∀ c ∈ acc, JsString.isWsChar c = false) →
      wordsOf (mapWordsAcc f acc s) = (wordsAcc acc s).map f := by
  induction s with
  | nil =>
    intro acc hacc
    rw [mapWordsAcc, wordsAcc]
    by_cases ha : acc.isEmpty
    · have hae : acc = [] := List.isEmpty_iff.mp ha
      subst hae
      simp [hfe, wordsOf, wordsAcc]
    · rw [if_neg ha]
      have hne : acc.reverse ≠ [] := by
        simp only [List.isEmpty_iff] at ha
        simpa using ha
      obtain ⟨h1, h2⟩ := hf acc.reverse hne (fun c hc => hacc c (List.mem_reverse.mp hc))
      rw [wordsOf, wordsAcc_nonws _ h1 h2 []]
      simp
  | cons c rest ih =>
    intro acc hacc
    rw [mapWordsAcc, wordsAcc]
    by_cases hcw : JsString.isWsChar c
    · rw [if_pos hcw, if_pos hcw]
      by_cases ha : acc.isEmpty
      · have hae : acc = [] := List.isEmpty_iff.mp ha
        subst hae
        rw [if_pos ha]
        simp only [List.reverse_nil, hfe, List.nil_append]
        rw [wordsOf, wordsAcc, if_pos hcw, if_pos ha]
        exact ih [] (by simp)
      · rw [if_neg ha]
        have hne : acc.reverse ≠ [] := by
          simp only [List.isEmpty_iff] at ha
          simpa using ha
        obtain ⟨h1, h2⟩ := hf acc.reverse hne (fun x hx => hacc x (List.mem_reverse.mp hx))
        rw [wordsOf, wordsAcc_append (f acc.reverse) h2 _ [], List.append_nil, wordsAcc]
        rw [if_pos hcw, if_neg (by simpa [List.isEmpty_iff] using h1)]
        rw [List.reverse_reverse, List.map_cons]
        congr 1
        exact ih [] (by simp)
    · rw [if_neg hcw, if_neg hcw]
      refine ih (c :: acc) ?_
      intro x hx
      rcases List.mem_cons.mp hx with h | h
      · subst h
        simpa using hcw
      · exact hacc x h

/-- Whether the string starts with a whitespace character. -/
def wsHead : Str → Bool
  | [] => false
  | c :: _ => JsString.isWsChar c

/-- Whether the string ends with a whitespace character. -/
def wsLast (s : Str) : Bool :=
  match s.getLast? with
  | some c => JsString.isWsChar c
  | none => false

theorem wsLast_cons_cons (c d : Char) (t : Str) : wsLast (c :: d :: t) = wsLast (d :: t) := by
  rw [wsLast, wsLast, List.getLast?_cons_cons]

theorem wordsOf_cons_ws {c : Char} (hc : JsString.isWsChar c = true) (t : Str) :
    wordsOf (c :: t) = wordsOf t := by
  have h0 : ([] : Str).isEmpty = true := rfl
  rw [wordsOf, wordsAcc, if_pos hc, if_pos h0, wordsOf]

theorem wordsOf_cons_nonws {c : Char} (hc : JsString.isWsChar c = false) (t : Str) :
    wordsOf (c :: t) = wordsAcc [c] t := by
  rw [wordsOf, wordsAcc, hc]
  simp

theorem wordsAcc_ne_nil (t : Str) :
    ∀ acc : Str, acc ≠ [] → wordsAcc acc t ≠ [] := by
  induction t with
  | nil =>
    intro acc ha
    rw [wordsAcc, if_neg (by simpa [List.isEmpty_iff] using ha)]
    simp
  | cons c rest ih =>
    intro acc ha
    rw [wordsAcc]
    by_cases hc : JsString.isWsChar c
    · rw [if_pos hc, if_neg (by simpa [List.isEmpty_iff] using ha)]
      simp
    · rw [if_neg hc]
      exact ih (c :: acc) (by simp)

/-- A string with no words is all whitespace. -/
theorem allws_of_wordsOf_nil (s : Str) (h : wordsOf s = []) :
    ∀ c ∈ s, JsString.isWsChar c = true := by
  induction s with
  | nil => simp
  | cons c rest ih =>
    intro x hx
    by_cases hc : JsString.isWsChar c
    · rcases List.mem_cons.mp hx with h2 | h2
      · subst h2
        exact hc
      · exact ih (by rwa [wordsOf_cons_ws hc] at h) x h2
    · rw [wordsOf_cons_nonws (by simpa using hc)] at h
      exact absurd h (wordsAcc_ne_nil rest [c] (by simp))

/-- A scan with a pending run yields that run extended by the leading
non-whitespace prefix, then the words of the remainder. -/
theorem wordsAcc_eq_cons (t : Str) :
    ∀ acc : Str, acc ≠ [] →
      wordsAcc acc t =
        (acc.reverse ++ t.takeWhile (fun c => !JsString.isWsChar c)) ::
          wordsOf (t.dropWhile (fun c => !JsString.isWsChar c)) := by
  induction t with
  | nil =>
    intro acc ha
    rw [wordsAcc, if_neg (by simpa [List.isEmpty_iff] using ha)]
    simp [wordsOf, wordsAcc]
  | cons c rest ih =>
    intro acc ha
    by_cases hc : JsString.isWsChar c
    · rw [wordsAcc, if_pos hc, if_neg (by simpa [List.isEmpty_iff] using ha)]
      rw [List.takeWhile_cons, List.dropWhile_cons]
      simp only [hc, Bool.not_true, Bool.false_eq_true, if_false]
      rw [wordsOf_cons_ws hc]
      simp [wordsOf]
    · rw [wordsAcc, if_neg hc]
      rw [ih (c :: acc) (by simp)]
      rw [List.takeWhile_cons, List.dropWhile_cons]
      have hc' : JsString.isWsChar c = false := by simpa using hc
      simp [hc']

theorem joinWords_cons₂ (w x : Str) (l : List Str) :
    joinWords (w :: x :: l) = w ++ ' ' :: joinWords (x :: l) := rfl

theorem joinWords_cons_char (c : Char) (w : Str) (l : List Str) :
    joinWords ((c :: w) :: l) = c :: joinWords (w :: l) := by
  cases l with
  | nil => rfl
  | cons x r => rw [joinWords_cons₂, joinWords_cons₂]; simp

/-- The canonical decomposition of `collapseWs`: an optional leading space,
the words joined by single spaces, and an optional trailing space. -/
theorem collapseWs_canon (s : Str) :
    JsString.collapseWs s =
      (if wsHead s then [' '] else []) ++ joinWords (wordsOf s) ++
        (if !(wordsOf s).isEmpty && wsLast s then [' '] else []) := by
  induction s with
  | nil => rfl
  | cons c t ih =>
    cases t with
    | nil =>
      by_cases hc : JsString.isWsChar c
      · rw [JsString.collapseWs, if_pos hc]
        rw [wordsOf_cons_ws hc]
        simp [wsHead, hc, wordsOf, wordsAcc, joinWords]
      · have hc' : JsString.isWsChar c = false := by simpa using hc
        rw [JsString.collapseWs, if_neg hc]
        rw [wordsOf_cons_nonws hc']
        simp [wsHead, hc', wordsAcc, joinWords, wsLast]
    | cons d rest =>
      by_cases hc : JsString.isWsChar c
      · by_cases hd : JsString.isWsChar d
        · rw [JsString.collapseWs, if_pos hc, if_pos hd, ih]
          rw [wordsOf_cons_ws hc, wsLast_cons_cons]
          simp [wsHead, hc, hd]
        · rw [JsString.collapseWs, if_pos hc, if_neg hd, ih]
          rw [wordsOf_cons_ws hc, wsLast_cons_cons]
          have hd' : JsString.isWsChar d = false := by simpa using hd
          simp [wsHead, hc, hd']
      · have hc' : JsString.isWsChar c = false := by simpa using hc
        rw [JsString.collapseWs, if_neg hc, ih]
        rw [wordsOf_cons_nonws hc', wsLast_cons_cons]
        by_cases hd : JsString.isWsChar d
        · -- second char is whitespace: the first word is exactly [c]
          rw [wordsAcc, if_pos hd]
          simp only [List.isEmpty_cons, Bool.false_eq_true, if_false]
          rw [wordsOf_cons_ws hd]
          rcases hrest : wordsOf rest with _ | ⟨w, l⟩
          · -- no further words: d :: rest is all whitespace, so wsLast holds
            have hlast : wsLast (d :: rest) = true := by
              rcases hgl : (d :: rest).getLast? with _ | x
              · simp at hgl
              · rw [wsLast, hgl]
                have hx : x ∈ d :: rest := List.mem_of_mem_getLast? hgl
                rcases List.mem_cons.mp hx with h2 | h2
                · subst h2
                  exact hd
                · exact allws_of_wordsOf_nil rest hrest x h2
            rw [hlast]
            have hrest' : wordsAcc [] rest = [] := hrest
            rw [hrest']
            simp [wsHead, hc', hd, joinWords]
          · have hrest' : wordsAcc [] rest = w :: l := hrest
            rw [hrest', joinWords_cons₂]
            simp [wsHead, hc', hd, joinWords]
        · -- second char continues the word
          have hd' : JsString.isWsChar d = false := by simpa using hd
          rw [wordsAcc, if_neg hd]
          rw [wordsAcc_eq_cons rest [d, c] (by simp)]
          rw [wordsOf_cons_nonws hd', wordsAcc_eq_cons rest [d] (by simp)]
          simp only [List.reverse_cons, List.reverse_nil, List.nil_append, List.cons_append]
          conv_rhs => rw [joinWords_cons_char]
          simp [wsHead, hc', hd']

theorem dropWhile_append_allws (u w : Str) (hu : ∀ c ∈ u, JsString.isWsChar c = true) :
    List.dropWhile JsString.isWsChar (u ++ w) = List.dropWhile JsString.isWsChar w := by
  induction u with
  | nil => simp
  | cons c t ih =>
    rw [List.cons_append, List.dropWhile_cons]
    rw [hu c (List.mem_cons_self c t)]
    simp only [if_true]
    exact ih (fun x hx => hu x (List.mem_cons_of_mem c hx))

theorem trimStr_allws (s : Str) (h : ∀ c ∈ s, JsString.isWsChar c = true) :
    JsString.trimStr s = [] := by
  rw [JsString.trimStr]
  have h1 : s.dropWhile JsString.isWsChar = [] := by
    rw [List.dropWhile_eq_nil_iff]
    intro x hx
    exact h x hx
  rw [h1]
  simp

theorem joinWords_head (w : Str) (l : List Str) (hne : w ≠ []) :
    ∃ a m, joinWords (w :: l) = a :: m ∧ a ∈ w := by
  cases w with
  | nil => exact absurd rfl hne
  | cons a w2 => exact ⟨a, joinWords (w2 :: l), joinWords_cons_char a w2 l, List.mem_cons_self a w2⟩

theorem joinWords_last (l : List Str)
    (hl : ∀ w ∈ l, w ≠ [] ∧ ∀ c ∈ w, JsString.isWsChar c = false) (hne : l ≠ []) :
    ∃ b r, (joinWords l).reverse = b :: r ∧ JsString.isWsChar b = false := by
  induction l with
  | nil => exact absurd rfl hne
  | cons w t ih =>
    cases t with
    | nil =>
      obtain ⟨hw, hws⟩ := hl w (List.mem_cons_self w [])
      rcases hwr : w.reverse with _ | ⟨b, r⟩
      · exact absurd (by simpa using hwr) hw
      · refine ⟨b, r, ?_, hws b (List.mem_reverse.mp (by rw [hwr]; exact List.mem_cons_self b r))⟩
        show (joinWords [w]).reverse = b :: r
        rw [joinWords, hwr]
    | cons x s =>
      obtain ⟨b, r, hbr, hb⟩ := ih (fun v hv => hl v (List.mem_cons_of_mem w hv)) (by simp)
      refine ⟨b, r ++ ' ' :: w.reverse, ?_, hb⟩
      rw [joinWords_cons₂, List.reverse_append, List.reverse_cons, List.append_assoc, hbr]
      simp

/-- Trimming the collapsed string yields exactly the words joined by single
spaces: the canonical form of `TextNormalizer.normalizeText` output. -/
theorem trimStr_collapseWs (s : Str) :
    JsString.trimStr (JsString.collapseWs s) = joinWords (wordsOf s) := by
  rw [collapseWs_canon]
  have hu : ∀ c ∈ (if wsHead s then ([' '] : Str) else []), JsString.isWsChar c = true := by
    intro c hc
    split_ifs at hc
    · rw [List.mem_singleton] at hc
      subst hc
      decide
    · simp at hc
  rcases hw : wordsOf s with _ | ⟨w, l⟩
  · simp only [List.isEmpty_nil, Bool.not_true, Bool.false_and, Bool.false_eq_true, if_false]
    rw [joinWords]
    apply trimStr_allws
    intro c hc
    simp only [List.append_nil] at hc
    exact hu c hc
  · have hwords : ∀ v ∈ w :: l, v ≠ [] ∧ ∀ c ∈ v, JsString.isWsChar c = false := by
      rw [← hw]
      exact wordsAcc_words s [] (by simp)
    have hv : ∀ c ∈ (if !(w :: l).isEmpty && wsLast s then ([' '] : Str) else []),
        JsString.isWsChar c = true := by
      intro c hc
      split_ifs at hc
      · rw [List.mem_singleton] at hc
        subst hc
        decide
      · simp at hc
    obtain ⟨a, m, ham, haw⟩ := joinWords_head w l (hwords w (List.mem_cons_self w l)).1
    have ha : JsString.isWsChar a = false := (hwords w (List.mem_cons_self w l)).2 a haw
    obtain ⟨b, r, hbr, hb⟩ := joinWords_last (w :: l) hwords (by simp)
    rw [JsString.trimStr, List.append_assoc]
    rw [dropWhile_append_allws _ _ hu]
    rw [ham, List.cons_append, List.dropWhile_cons, ha]
    simp only [Bool.false_eq_true, if_false]
    rw [← List.cons_append, ← ham, List.reverse_append]
    rw [dropWhile_append_allws _ _ (fun c hc => hv c (List.mem_reverse.mp hc))]
    rw [hbr, List.dropWhile_cons, hb]
    simp only [Bool.false_eq_true, if_false]
    rw [← hbr, List.reverse_reverse]

theorem joinWords_chars (l : List Str) :
    ∀ c ∈ joinWords l, c = ' ' ∨ ∃ w ∈ l, c ∈ w := by
  induction l with
  | nil => simp [joinWords]
  | cons w t ih =>
    intro c hc
    cases t with
    | nil =>
      rw [joinWords] at hc
      exact Or.inr ⟨w, List.mem_cons_self w [], hc⟩
    | cons x s =>
      rw [joinWords_cons₂] at hc
      rcases List.mem_append.mp hc with h | h
      · exact Or.inr ⟨w, List.mem_cons_self w (x :: s), h⟩
      · rcases List.mem_cons.mp h with h2 | h2
        · exact Or.inl h2
        · rcases ih c h2 with h3 | ⟨v, hv, hcv⟩
          · exact Or.inl h3
          · exact Or.inr ⟨v, List.mem_cons_of_mem w hv, hcv⟩

/-- The output of `normalizeText` is its words mapped through the number-word
conversion and joined by single spaces. -/
theorem normalizeText_eq_joinWords (x : Str) :
    normalizeText x =
      joinWords ((wordsOf (stripPunct (JsString.toLowerStr x))).map convertWord) := by
  rw [normalizeText, normalizeNumbers, wordsToNumbersModel, trimStr_collapseWs]
  congr 1
  exact wordsOf_mapWordsAcc convertWord convertWord_word convertWord_nil
    (stripPunct (JsString.toLowerStr x)) [] (by simp)

/-- Every word of the normalized output is a non-empty whitespace-free,
lowercase-stable, punctuation-free string. -/
theorem normalized_words_ok (x : Str) :
    ∀ w ∈ (wordsOf (stripPunct (JsString.toLowerStr x))).map convertWord,
      (w ≠ [] ∧ ∀ c ∈ w, JsString.isWsChar c = false) ∧
        (∀ c ∈ w, JsString.lowerChar c = c) ∧ (∀ c ∈ w, isPunct c = false) := by
  intro w hw
  rcases List.mem_map.mp hw with ⟨v, hv, rfl⟩
  have hvz := wordsAcc_words (stripPunct (JsString.toLowerStr x)) [] (by simp) v hv
  have hchars : ∀ c ∈ v, c ∈ stripPunct (JsString.toLowerStr x) := by
    intro c hc
    rcases wordsAcc_chars _ [] v hv c hc with h | h
    · simp at h
    · exact h
  have hlow : ∀ c ∈ v, JsString.lowerChar c = c := by
    intro c hc
    have hm : c ∈ JsString.toLowerStr x := List.mem_of_mem_filter (hchars c hc)
    rcases List.mem_map.mp hm with ⟨c0, _, rfl⟩
    exact lowerChar_idem c0
  have hpun : ∀ c ∈ v, isPunct c = false := by
    intro c hc
    have := List.of_mem_filter (hchars c hc)
    simpa using this
  exact ⟨convertWord_word v hvz.1 hvz.2, convertWord_lower v hlow, convertWord_nopunct v hpun⟩

/-- Claim C7: `TextNormalizer.normalizeText` is idempotent: for every input
string `x`, `normalizeText (normalizeText x) = normalizeText x`. -/
theorem normalizeText_idempotent (x : Str) :
    normalizeText (normalizeText x) = normalizeText x := by
  have hrep := normalizeText_eq_joinWords x
  have hok := normalized_words_ok x
  set L := (wordsOf (stripPunct (JsString.toLowerStr x))).map convertWord with hL
  have h1 : JsString.toLowerStr (joinWords L) = joinWords L := by
    rw [JsString.toLowerStr]
    have hfix : ∀ c ∈ joinWords L, JsString.lowerChar c = c := by
      intro c hc
      rcases joinWords_chars L c hc with rfl | ⟨w, hw, hcw⟩
      · decide
      · exact (hok w hw).2.1 c hcw
    calc (joinWords L).map JsString.lowerChar
        = (joinWords L).map id := List.map_congr_left hfix
      _ = joinWords L := List.map_id _
  have h2 : stripPunct (joinWords L) = joinWords L := by
    rw [stripPunct]
    apply List.filter_eq_self.mpr
    intro c hc
    rcases joinWords_chars L c hc with rfl | ⟨w, hw, hcw⟩
    · decide
    · simp [(hok w hw).2.2 c hcw]
  rw [hrep]
  rw [normalizeText, normalizeNumbers, wordsToNumbersModel, h1, h2, trimStr_collapseWs]
  rw [wordsOf_mapWordsAcc convertWord convertWord_word convertWord_nil (joinWords L) [] (by simp)]
  have hwAcc : wordsAcc [] (joinWords L) = L :=
    wordsOf_joinWords L (fun w hw => (hok w hw).1)
  rw [hwAcc]
  congr 1
  rw [hL, List.map_map]
  exact List.map_congr_left (fun v _ => convertWord_idem v)

end TextNormalizer
